import Mathlib

/-!
Verification of the Rabin-Williams signature implementation.

This file gives a shallow embedding of the repository's Rust sources
(`src/utils.rs`, `src/keys.rs`, `src/hash.rs`, `src/errors.rs`) into Lean 4
and proves properties of the embedded code.

Modelling conventions:
* `BigUint` is modelled as `ℕ`; `BigInt` as `ℤ`.  Machine-width integers do
  not occur on the paths modelled here (`e: i32` is modelled as `ℤ`,
  `f: u32` as `ℕ`; both only ever hold the tiny values ±1 resp. 1/2).
* Byte strings (`&[u8]`, `Vec<u8>`) are `List ℕ` (each entry a byte value).
* Fallible Rust functions returning `Result<T>` become `Except RwError T`.
  Rust runtime aborts are modelled as distinguished error values:
  `panicUnderflow` for `BigUint` subtraction underflow, `panicNoResidue`
  for the explicit abort in `make_quadratic_residue`, `panicDivZero` for
  `BigUint` division/remainder by zero, and `panicUnreachable` for the
  `unreachable` arm in `PublicKey::verify`.
* Loops are embedded as fuel-indexed structural recursions; each fuel value
  is chosen to dominate the loop's iteration count, so the embedded
  function agrees with the Rust loop wherever the loop terminates.
* The pluggable hash capability (`HashWrapper<D>`) is an abstract function
  `List ℕ → ℕ` carried in the key records; the probabilistic primality
  oracle of `num_prime` is an abstract function `ℕ → Bool`; the random
  draws of `rand` are supplied as explicit arguments (a list of draws for
  key generation, a single value for blinding).
-/

/-- Errors of `src/errors.rs` (`RabinWilliamsError`), extended with
distinguished values modelling Rust runtime aborts (see module docstring). -/
inductive RwError where
  | invalidKeySize
  | invalidPrime
  | messageTooLarge
  | invalidSignature
  | squareRootModPrimeFailed
  | computationError
  | panicUnderflow
  | panicNoResidue
  | panicDivZero
  | panicUnreachable
deriving DecidableEq, Repr

instance {ε α : Type} [DecidableEq ε] [DecidableEq α] : DecidableEq (Except ε α) :=
  fun x y =>
    match x, y with
    | .ok a, .ok b =>
      if h : a = b then .isTrue (by rw [h]) else .isFalse (fun hh => h (Except.ok.inj hh))
    | .error a, .error b =>
      if h : a = b then .isTrue (by rw [h]) else .isFalse (fun hh => h (Except.error.inj hh))
    | .ok _, .error _ => .isFalse (fun hh => Except.noConfusion hh)
    | .error _, .ok _ => .isFalse (fun hh => Except.noConfusion hh)

/-- `BigUint::from_bytes_be`: interpret a byte string as a big-endian
base-256 integer. -/
def fromBytesBE (l : List ℕ) : ℕ :=
  Nat.ofDigits 256 l.reverse

/-- Little-endian-to-big-endian digit extraction loop underlying
`toBytesBE`: repeatedly split off the low byte, prepending it to the
accumulator.  `x` strictly decreases (division by 256), so fuel `x`
dominates. -/
def toBytesBELoop : ℕ → ℕ → List ℕ → List ℕ
  | 0, _, acc => acc
  | fuel + 1, x, acc =>
    if x = 0 then acc else toBytesBELoop fuel (x / 256) (x % 256 :: acc)

/-- `BigUint::to_bytes_be`: minimal big-endian byte string of a natural
number; `num_bigint` returns the single byte `[0]` for zero. -/
def toBytesBE (x : ℕ) : List ℕ :=
  if x = 0 then [0] else toBytesBELoop x x []

/-- `is_quadratic_residue` from `src/utils.rs`: Euler's criterion
`a^((p-1)/2) mod p == 1`, with `false` for `p ∈ {0,1}`. -/
def is_quadratic_residue (a p : ℕ) : Bool :=
  if p = 0 ∨ p = 1 then false
  else a ^ ((p - 1) / 2) % p == 1

/-- The candidate array built inside `make_quadratic_residue`
(`src/utils.rs` lines 127-132): `a`, `n - a`, `2a mod n`, `2(n-a) mod n`,
with their `(e, f)` tags. -/
def qrCandidates (a p q : ℕ) : List (ℕ × ℤ × ℕ) :=
  let n := p * q
  [(a, 1, 1), (n - a, -1, 1), (a * 2 % n, 1, 2), ((n - a) * 2 % n, -1, 2)]

/-- `make_quadratic_residue` from `src/utils.rs`.  The Rust code builds the
candidate array eagerly, so the `BigUint` subtraction `n - a` underflows
(aborts) whenever `a > n`; when no candidate passes the joint residue test
the Rust code aborts explicitly. -/
def make_quadratic_residue (a p q : ℕ) : Except RwError (ℕ × ℤ × ℕ) :=
  let n := p * q
  if a ≤ n then
    match (qrCandidates a p q).find?
        (fun c => is_quadratic_residue c.1 p && is_quadratic_residue c.1 q) with
    | some c => .ok c
    | none => .error .panicNoResidue
  else .error .panicUnderflow

/-- The extended-Euclid loop of `mod_inverse` (`src/utils.rs` lines
102-106), state `(r, newr, t, newt)`.  `r` and `newr` stay non-negative in
the Rust code, so they are carried as `ℕ`; the quotient `r / newr` on
non-negative values agrees with Rust's `BigInt` division.  `newr` strictly
decreases each iteration, so fuel `newr + 1` dominates the loop. -/
def egcdLoop : ℕ → ℕ → ℕ → ℤ → ℤ → ℕ × ℤ
  | 0, r, _, t, _ => (r, t)
  | fuel + 1, r, newr, t, newt =>
    if newr = 0 then (r, t)
    else egcdLoop fuel newr (r % newr) newt (t - (r / newr : ℕ) * newt)

/-- `mod_inverse` from `src/utils.rs`: extended Euclidean algorithm,
`none` when `m = 0` or the final remainder exceeds 1, else the Bezout
coefficient lifted into `[0, m)`. -/
def mod_inverse (a m : ℕ) : Option ℕ :=
  if m = 0 then none
  else
    let res := egcdLoop (a + 1) m a 0 1
    if 1 < res.1 then none
    else some (if res.2 < 0 then res.2 + m else res.2).toNat

/-- The accumulation loop of `chinese_remainder_theorem` (`src/utils.rs`
lines 79-86) over the `(remainder, modulus)` pairs.  Rust's
`&prod / moduli[i]` aborts when `moduli[i] = 0`. -/
def crtLoop (prod : ℕ) : List (ℕ × ℕ) → ℕ → Except RwError ℕ
  | [], sum => .ok sum
  | (r, m) :: rest, sum =>
    if m = 0 then .error .panicDivZero
    else
      let p := prod / m
      match mod_inverse p m with
      | none => .error .computationError
      | some inv => crtLoop prod rest ((sum + r * p % prod * inv % prod % prod) % prod)

/-- `chinese_remainder_theorem` from `src/utils.rs`. -/
def chinese_remainder_theorem (remainders moduli : List ℕ) : Except RwError ℕ :=
  if remainders.length ≠ moduli.length ∨ remainders.isEmpty then
    .error .computationError
  else
    let prod := moduli.foldl (· * ·) 1
    crtLoop prod (remainders.zip moduli) 0

/-- Proof abbreviation: the per-index summand accumulated by `crtLoop`
(the value of Rust's `term` variable for the pair `rm`). -/
def crtTerm (prod : ℕ) (rm : ℕ × ℕ) : ℕ :=
  rm.1 * (prod / rm.2) % prod * ((mod_inverse (prod / rm.2) rm.2).getD 0) % prod % prod

/-- The `while (&q % 2u32).is_zero()` loop of `mod_sqrt` (`src/utils.rs`
lines 24-27): split `q` into its odd part and the exponent of 2, returning
`(odd part, s)`.  `q` starts at `p - 1 ≥ 1`, so fuel `q` dominates. -/
def oddPartLoop : ℕ → ℕ → ℕ × ℕ
  | 0, q => (q, 0)
  | fuel + 1, q =>
    if q % 2 = 0 then
      let res := oddPartLoop fuel (q / 2)
      (res.1, res.2 + 1)
    else (q, 0)

/-- The non-residue search `while is_quadratic_residue(&z, p)` of
`mod_sqrt` (`src/utils.rs` lines 35-38).  For `p ≥ 2` the value `z = p`
always fails the test, so fuel `p` starting from `z = 2` dominates. -/
def findNonResidue (p : ℕ) : ℕ → ℕ → ℕ
  | 0, z => z
  | fuel + 1, z => if is_quadratic_residue z p then findNonResidue p fuel (z + 1) else z

/-- The inner `while !temp.is_one() && i < m` squaring loop of `mod_sqrt`
(`src/utils.rs` lines 50-55), returning the final `i`; the `i < m` guard is
realised by starting the fuel at `m`. -/
def tsOrderLoop (p : ℕ) : ℕ → ℕ → ℕ → ℕ
  | 0, _, i => i
  | fuel + 1, temp, i =>
    if temp ≠ 1 then tsOrderLoop p fuel (temp * temp % p) (i + 1) else i

/-- The main Tonelli-Shanks loop of `mod_sqrt` (`src/utils.rs` lines
45-66), state `(c, r, t, m)`.  `m` strictly decreases each iteration, so
fuel `m + 1` dominates. -/
def tsMainLoop (p : ℕ) : ℕ → ℕ → ℕ → ℕ → ℕ → Except RwError ℕ
  | 0, _, _, _, _ => .error .squareRootModPrimeFailed
  | fuel + 1, c, r, t, m =>
    if t = 1 then .ok r
    else
      let i := tsOrderLoop p m t 0
      if i = m then .error .squareRootModPrimeFailed
      else
        let b := c ^ (2 ^ (m - i - 1)) % p
        let r' := r * b % p
        let c' := b * b % p
        let t' := t * c' % p
        tsMainLoop p fuel c' r' t' i

/-- `mod_sqrt` from `src/utils.rs` (Tonelli-Shanks).  Note the order of the
two leading checks: the residue test runs first, and `is_quadratic_residue`
already returns `false` for `p ∈ {0,1}`. -/
def mod_sqrt (a p : ℕ) : Except RwError ℕ :=
  if is_quadratic_residue a p = false then .error .squareRootModPrimeFailed
  else if p = 0 ∨ p = 1 then .error .invalidPrime
  else if p % 4 = 3 then .ok (a ^ ((p + 1) / 4) % p)
  else
    let qs := oddPartLoop (p - 1) (p - 1)
    let q := qs.1
    let s := qs.2
    if s = 1 then .ok (a ^ ((p + 1) / 4) % p)
    else
      let z := findNonResidue p p 2
      let c := z ^ q % p
      let r := a ^ ((q + 1) / 2) % p
      let t := a ^ q % p
      tsMainLoop p (s + 1) c r t s

/-- `PublicKey` (`src/keys.rs`): modulus `n` together with the abstract
hash capability. -/
structure PublicKey where
  n : ℕ
  hash : List ℕ → ℕ

/-- `PrivateKey` (`src/keys.rs`): primes `p`, `q` together with the
abstract hash capability. -/
structure PrivateKey where
  p : ℕ
  q : ℕ
  hash : List ℕ → ℕ

/-- `KeyPair` (`src/keys.rs`).  The Rust field `private` is a reserved word
in Lean and is rendered `priv`. -/
structure KeyPair where
  pub : PublicKey
  priv : PrivateKey

/-- `PrivateKey::pack_signature` (`src/keys.rs` lines 250-258): one flag
byte (bit 0 set iff `e = -1`, bit 1 set iff `f = 2`) prepended to the
big-endian magnitude of `x`. -/
def PrivateKey.pack_signature (e : ℤ) (f : ℕ) (x : ℕ) : List ℕ :=
  let first_byte := (if e = -1 then 1 else 0) ||| ((if f = 2 then 1 else 0) <<< 1)
  first_byte :: toBytesBE x

/-- `PublicKey::extract_signature` (`src/keys.rs` lines 116-140). -/
def PublicKey.extract_signature (signature : List ℕ) : Except RwError (ℤ × ℕ × ℕ) :=
  match signature with
  | [] => .error .invalidSignature
  | first_byte :: rest =>
    if first_byte &&& 0xFC ≠ 0 then .error .invalidSignature
    else
      let e : ℤ := if first_byte &&& 1 = 0 then 1 else -1
      let f : ℕ := if first_byte &&& 2 = 0 then 1 else 2
      if (first_byte :: rest).length < 2 then .error .invalidSignature
      else .ok (e, f, fromBytesBE rest)

/-- `PublicKey::verify` (`src/keys.rs` lines 142-165).  The `(e, f)` match
is rendered as the same four-way case split; its wildcard arm aborts in
Rust and is modelled by `panicUnreachable`. -/
def PublicKey.verify (pk : PublicKey) (message signature : List ℕ) : Except RwError Bool :=
  let m := pk.hash message
  match PublicKey.extract_signature signature with
  | .error err => .error err
  | .ok (e, f, x) =>
    let x_squared := x * x % pk.n
    let n := pk.n
    if e = 1 ∧ f = 1 then .ok (x_squared == m)
    else if e = 1 ∧ f = 2 then
      let two_inv := (n + 1) / 2
      .ok (x_squared * two_inv % n == m)
    else if e = -1 ∧ f = 1 then .ok ((n - x_squared) % n == m)
    else if e = -1 ∧ f = 2 then
      let two_inv := (n + 1) / 2
      .ok ((n - x_squared) * two_inv % n == m)
    else .error .panicUnreachable

/-- `PublicKey::blinding` (`src/keys.rs` lines 110-114) with the random
coprime draw `r` supplied as an argument. -/
def PublicKey.blinding (pk : PublicKey) (r : ℕ) : ℕ × ℕ :=
  (r, r * r % pk.n)

/-- `PublicKey::blind_message` (`src/keys.rs` lines 169-174) with the
random draw `r` supplied as an argument. -/
def PublicKey.blind_message (pk : PublicKey) (message : List ℕ) (r : ℕ) : ℕ × ℕ :=
  let m := pk.hash message
  let rr := pk.blinding r
  (rr.2 * m % pk.n, rr.1)

/-- `PublicKey::unblind_signature` (`src/keys.rs` lines 177-182). -/
def PublicKey.unblind_signature (pk : PublicKey) (signature : List ℕ) (r : ℕ) :
    Except RwError (List ℕ) :=
  match PublicKey.extract_signature signature with
  | .error err => .error err
  | .ok (e, f, x) =>
    match mod_inverse r pk.n with
    | none => .error .invalidSignature
    | some r_inv => .ok (PrivateKey.pack_signature e f (r_inv * x % pk.n))

/-- `PrivateKey::raw_sign` (`src/keys.rs` lines 215-248). -/
def PrivateKey.raw_sign (sk : PrivateKey) (message : List ℕ) : Except RwError (List ℕ) :=
  let m := fromBytesBE message
  match make_quadratic_residue m sk.p sk.q with
  | .error err => .error err
  | .ok (m', e, f) =>
    let mp := m' % sk.p
    let mq := m' % sk.q
    let sp := mp ^ ((sk.p + 1) / 4) % sk.p
    let sq := mq ^ ((sk.q + 1) / 4) % sk.q
    match chinese_remainder_theorem [sp, sq] [sk.p, sk.q] with
    | .error err => .error err
    | .ok signature => .ok (PrivateKey.pack_signature e f signature)

/-- `PrivateKey::sign` (`src/keys.rs` lines 210-213): hash, then
`raw_sign` on the big-endian digest bytes. -/
def PrivateKey.sign (sk : PrivateKey) (message : List ℕ) : Except RwError (List ℕ) :=
  sk.raw_sign (toBytesBE (sk.hash message))

/-- The forward scan of `generate_prime_congruent` (`src/keys.rs` lines
69-79): from `candidate`, while `candidate ≤ max`, return the first value
meeting the congruence and the primality oracle.  Fuel `max + 1 -
candidate` dominates the loop exactly. -/
def scanCandidate (isPrime : ℕ → Bool) (max remainder modulus : ℕ) :
    ℕ → ℕ → Option ℕ
  | 0, _ => none
  | fuel + 1, candidate =>
    if candidate ≤ max then
      if candidate % modulus == remainder && isPrime candidate then some candidate
      else scanCandidate isPrime max remainder modulus fuel (candidate + 1)
    else none

/-- The `for _ in 0..1000` restart rounds of `generate_prime_congruent`
(`src/keys.rs` lines 64-80), one random draw per round. -/
def gpcRounds (isPrime : ℕ → Bool) (max remainder modulus : ℕ) :
    List ℕ → Except RwError ℕ
  | [] => .error .invalidPrime
  | num :: rest =>
    match scanCandidate isPrime max remainder modulus (max + 1 - num) num with
    | some c => .ok c
    | none => gpcRounds isPrime max remainder modulus rest

/-- `generate_prime_congruent` (`src/keys.rs` lines 59-83) with the
primality oracle and the random draws supplied as arguments; at most 1000
draws are consumed. -/
def generate_prime_congruent (isPrime : ℕ → Bool) (rng : List ℕ)
    (bits remainder modulus : ℕ) : Except RwError ℕ :=
  gpcRounds isPrime (2 ^ bits - 1) remainder modulus (rng.take 1000)

/-- `KeyPair::generate_with_hash` (`src/keys.rs` lines 31-48) with the
primality oracle and the two random-draw streams supplied as arguments. -/
def KeyPair.generate_with_hash (isPrime : ℕ → Bool) (rngP rngQ : List ℕ)
    (bits : ℕ) (hash : List ℕ → ℕ) : Except RwError KeyPair :=
  if bits < 1024 then .error .invalidKeySize
  else
    let half_bits := bits / 2
    match generate_prime_congruent isPrime rngP half_bits 3 8 with
    | .error err => .error err
    | .ok p =>
      match generate_prime_congruent isPrime rngQ half_bits 7 8 with
      | .error err => .error err
      | .ok q => .ok ⟨⟨p * q, hash⟩, ⟨p, q, hash⟩⟩

/-! ### Byte-string encoding lemmas -/

theorem toBytesBELoop_eq (fuel : ℕ) :
    ∀ x acc, x ≤ fuel → toBytesBELoop fuel x acc = (Nat.digits 256 x).reverse ++ acc := by
  induction fuel with
  | zero =>
    intro x acc hx
    interval_cases x
    simp [toBytesBELoop]
  | succ fuel ih =>
    intro x acc hx
    by_cases h0 : x = 0
    · subst h0; simp [toBytesBELoop]
    · have hdiv : x / 256 ≤ fuel := by
        have : x / 256 < x := Nat.div_lt_self (Nat.pos_of_ne_zero h0) (by norm_num)
        omega
      rw [toBytesBELoop, if_neg h0, ih _ _ hdiv,
        Nat.digits_def' (by norm_num : 1 < 256) (Nat.pos_of_ne_zero h0)]
      simp

theorem toBytesBE_eq (x : ℕ) :
    toBytesBE x = if x = 0 then [0] else (Nat.digits 256 x).reverse := by
  unfold toBytesBE
  by_cases h0 : x = 0
  · simp [h0]
  · rw [if_neg h0, if_neg h0, toBytesBELoop_eq x x [] le_rfl, List.append_nil]

theorem fromBytesBE_toBytesBE (x : ℕ) : fromBytesBE (toBytesBE x) = x := by
  rw [toBytesBE_eq, fromBytesBE]
  by_cases h0 : x = 0
  · simp [h0, Nat.ofDigits]
  · rw [if_neg h0, List.reverse_reverse, Nat.ofDigits_digits]

theorem toBytesBE_ne_nil (x : ℕ) : toBytesBE x ≠ [] := by
  rw [toBytesBE_eq]
  by_cases h0 : x = 0
  · simp [h0]
  · simp only [if_neg h0, ne_eq, List.reverse_eq_nil_iff]
    exact Nat.digits_ne_nil_iff_ne_zero.mpr h0

/-- Evaluation of `extract_signature` on a well-formed non-empty signature. -/
theorem extract_cons_ok (b : ℕ) (l : List ℕ) (hb : b &&& 0xFC = 0) (hl : l ≠ []) :
    PublicKey.extract_signature (b :: l) =
      .ok (if b &&& 1 = 0 then 1 else -1, if b &&& 2 = 0 then 1 else 2, fromBytesBE l) := by
  have h0 : 0 < l.length := List.length_pos.mpr hl
  rw [PublicKey.extract_signature]
  simp only [List.length_cons]
  rw [if_neg (not_ne_iff.mpr hb), if_neg (by omega)]

theorem extract_pack (e : ℤ) (f x : ℕ) (he : e = 1 ∨ e = -1) (hf : f = 1 ∨ f = 2) :
    PublicKey.extract_signature (PrivateKey.pack_signature e f x) = .ok (e, f, x) := by
  rcases he with rfl | rfl <;> rcases hf with rfl | rfl
  · show PublicKey.extract_signature (0 :: toBytesBE x) = .ok (1, 1, x)
    rw [extract_cons_ok 0 _ (by decide) (toBytesBE_ne_nil x),
      if_pos (by decide), if_pos (by decide), fromBytesBE_toBytesBE]
  · show PublicKey.extract_signature (2 :: toBytesBE x) = .ok (1, 2, x)
    rw [extract_cons_ok 2 _ (by decide) (toBytesBE_ne_nil x),
      if_pos (by decide), if_neg (by decide), fromBytesBE_toBytesBE]
  · show PublicKey.extract_signature (1 :: toBytesBE x) = .ok (-1, 1, x)
    rw [extract_cons_ok 1 _ (by decide) (toBytesBE_ne_nil x),
      if_neg (by decide), if_pos (by decide), fromBytesBE_toBytesBE]
  · show PublicKey.extract_signature (3 :: toBytesBE x) = .ok (-1, 2, x)
    rw [extract_cons_ok 3 _ (by decide) (toBytesBE_ne_nil x),
      if_neg (by decide), if_neg (by decide), fromBytesBE_toBytesBE]

/-- The only error `extract_signature` ever returns is `invalidSignature`. -/
theorem extract_error_eq (sig : List ℕ) (err : RwError)
    (h : PublicKey.extract_signature sig = .error err) : err = .invalidSignature := by
  match sig with
  | [] =>
    rw [PublicKey.extract_signature] at h
    exact (Except.error.inj h.symm)
  | b :: rest =>
    rw [PublicKey.extract_signature] at h
    by_cases hb : b &&& 0xFC ≠ 0
    · rw [if_pos hb] at h
      exact (Except.error.inj h.symm)
    · rw [if_neg hb] at h
      by_cases hl : (b :: rest).length < 2
      · rw [if_pos hl] at h
        exact (Except.error.inj h.symm)
      · rw [if_neg hl] at h
        exact absurd h (by simp)

theorem extract_short (sig : List ℕ) (h : sig.length < 2) :
    PublicKey.extract_signature sig = .error .invalidSignature := by
  match sig with
  | [] => rfl
  | [b] =>
    rw [PublicKey.extract_signature]
    by_cases hb : b &&& 0xFC ≠ 0
    · rw [if_pos hb]
    · rw [if_neg hb, if_pos (by simp)]
  | b :: c :: rest => simp only [List.length_cons] at h; omega

theorem extract_ok_tags (sig : List ℕ) (e : ℤ) (f x : ℕ)
    (h : PublicKey.extract_signature sig = .ok (e, f, x)) :
    (e = 1 ∨ e = -1) ∧ (f = 1 ∨ f = 2) := by
  match sig with
  | [] => exact absurd h (by simp [PublicKey.extract_signature])
  | b :: rest =>
    rw [PublicKey.extract_signature] at h
    by_cases hb : b &&& 0xFC ≠ 0
    · rw [if_pos hb] at h
      exact absurd h (by simp)
    · rw [if_neg hb] at h
      by_cases hl : (b :: rest).length < 2
      · rw [if_pos hl] at h
        exact absurd h (by simp)
      · rw [if_neg hl] at h
        have hh := Except.ok.inj h
        simp only [Prod.mk.injEq] at hh
        obtain ⟨rfl, rfl, -⟩ := hh
        constructor
        · by_cases h1 : b &&& 1 = 0
          · exact Or.inl (if_pos h1)
          · exact Or.inr (if_neg h1)
        · by_cases h2 : b &&& 2 = 0
          · exact Or.inl (if_pos h2)
          · exact Or.inr (if_neg h2)

/-- C9: `extract_signature` rejects short inputs and reserved flag bits; any
accepted signature decodes to `(e, f)` in `{+1,-1} × {1,2}`, so the abort arm
of `PublicKey::verify`'s `(e, f)` match is unreachable. -/
theorem c9_extract_signature_safety (sig : List ℕ) :
    (sig.length < 2 → PublicKey.extract_signature sig = .error .invalidSignature) ∧
    (∀ b rest, sig = b :: rest → b &&& 0xFC ≠ 0 →
      PublicKey.extract_signature sig = .error .invalidSignature) ∧
    (∀ e f x, PublicKey.extract_signature sig = .ok (e, f, x) →
      (e = 1 ∨ e = -1) ∧ (f = 1 ∨ f = 2)) ∧
    (∀ pk msg, PublicKey.verify pk msg sig ≠ .error .panicUnreachable) := by
  refine ⟨extract_short sig, ?_, extract_ok_tags sig, ?_⟩
  · rintro b rest rfl hb
    rw [PublicKey.extract_signature, if_pos hb]
  · intro pk msg
    rw [PublicKey.verify]
    cases hex : PublicKey.extract_signature sig with
    | error err =>
      have herr := extract_error_eq sig err hex
      subst herr
      simp
    | ok v =>
      obtain ⟨e, f, x⟩ := v
      obtain ⟨he, hf⟩ := extract_ok_tags sig e f x hex
      rcases he with rfl | rfl <;> rcases hf with rfl | rfl <;> norm_num <;>
        exact fun hh => Except.noConfusion hh

/-- C9 witness: concrete instances of each clause. -/
theorem c9_extract_signature_safety_witness :
    PublicKey.extract_signature [4] = .error .invalidSignature ∧
    PublicKey.extract_signature [4, 7] = .error .invalidSignature ∧
    ((1 : ℤ) = 1 ∨ (1 : ℤ) = -1) ∧ ((1 : ℕ) = 1 ∨ (1 : ℕ) = 2) ∧
    (PublicKey.mk 21 (fun _ => 4)).verify [] [0, 16] ≠ .error .panicUnreachable :=
  ⟨(c9_extract_signature_safety [4]).1 (by norm_num),
   (c9_extract_signature_safety [4, 7]).2.1 4 [7] rfl (by decide),
   ((c9_extract_signature_safety [0, 5]).2.2.1 1 1 5 (by decide)).1,
   ((c9_extract_signature_safety [0, 5]).2.2.1 1 1 5 (by decide)).2,
   (c9_extract_signature_safety [0, 16]).2.2.2 (PublicKey.mk 21 (fun _ => 4)) []⟩

/-- C6: for `e ∈ {+1,-1}`, `f ∈ {1,2}` and any magnitude `x`,
`extract_signature` inverts `pack_signature`. -/
theorem c6_pack_extract_inverse (e : ℤ) (f x : ℕ)
    (he : e = 1 ∨ e = -1) (hf : f = 1 ∨ f = 2) :
    PublicKey.extract_signature (PrivateKey.pack_signature e f x) = .ok (e, f, x) :=
  extract_pack e f x he hf

/-- C6 witness. -/
theorem c6_pack_extract_inverse_witness :
    PublicKey.extract_signature (PrivateKey.pack_signature (-1) 2 5) = .ok (-1, 2, 5) :=
  c6_pack_extract_inverse (-1) 2 5 (Or.inr rfl) (Or.inr rfl)

/-- C7: at the failing input `a = 2`, `p = 1` the code returns
`SquareRootModPrimeFailed`, not `InvalidPrime` as specified: the residue
test precedes the `p ≤ 1` check and already returns `false` there, so the
`InvalidPrime` branch of `mod_sqrt` is unreachable. -/
theorem c7_mod_sqrt_error_shadowed :
    mod_sqrt 2 1 = .error .squareRootModPrimeFailed ∧
      mod_sqrt 2 1 ≠ .error .invalidPrime := by decide

/-- C10: the eager `n - a` in `make_quadratic_residue` underflows (a Rust
abort) for every `a > p·q`, and `raw_sign` passes its input bytes to it
unreduced, inheriting the same precondition. -/
theorem c10_make_qr_underflow (a p q : ℕ) (h : p * q < a) :
    make_quadratic_residue a p q = .error .panicUnderflow ∧
    ∀ (hash : List ℕ → ℕ) (msg : List ℕ), fromBytesBE msg = a →
      (PrivateKey.mk p q hash).raw_sign msg = .error .panicUnderflow := by
  have h1 : make_quadratic_residue a p q = .error .panicUnderflow := by
    rw [make_quadratic_residue]
    exact if_neg (by omega)
  refine ⟨h1, ?_⟩
  intro hash msg hmsg
  rw [PrivateKey.raw_sign]
  simp only [hmsg, h1]

/-- C10 witness. -/
theorem c10_make_qr_underflow_witness :
    3 * 7 < 22 ∧ make_quadratic_residue 22 3 7 = .error .panicUnderflow ∧
      (PrivateKey.mk 3 7 (fun _ => 0)).raw_sign [22] = .error .panicUnderflow :=
  ⟨by norm_num, (c10_make_qr_underflow 22 3 7 (by norm_num)).1,
    (c10_make_qr_underflow 22 3 7 (by norm_num)).2 (fun _ => 0) [22] (by decide)⟩

/-! ### Prime-search lemmas -/

theorem scanCandidate_ok (isP : ℕ → Bool) (max rem modl : ℕ) :
    ∀ fuel cand c, scanCandidate isP max rem modl fuel cand = some c →
      cand ≤ c ∧ c ≤ max ∧ c % modl = rem ∧ isP c = true := by
  intro fuel
  induction fuel with
  | zero => intro cand c h; exact absurd h (by simp [scanCandidate])
  | succ fuel ih =>
    intro cand c h
    rw [scanCandidate] at h
    by_cases hle : cand ≤ max
    · rw [if_pos hle] at h
      by_cases hcond : (cand % modl == rem && isP cand) = true
      · rw [if_pos hcond] at h
        obtain rfl := Option.some.inj h
        simp only [Bool.and_eq_true, beq_iff_eq] at hcond
        exact ⟨le_rfl, hle, hcond.1, hcond.2⟩
      · rw [if_neg hcond] at h
        have hrec := ih (cand + 1) c h
        exact ⟨by omega, hrec.2⟩
    · rw [if_neg hle] at h
      exact absurd h (by simp)

theorem gpcRounds_ok (isP : ℕ → Bool) (max rem modl : ℕ) :
    ∀ rngL c, gpcRounds isP max rem modl rngL = .ok c →
      ∃ num ∈ rngL, num ≤ c ∧ c ≤ max ∧ c % modl = rem ∧ isP c = true := by
  intro rngL
  induction rngL with
  | nil => intro c h; exact absurd h (by simp [gpcRounds])
  | cons num rest ih =>
    intro c h
    rw [gpcRounds] at h
    cases hscan : scanCandidate isP max rem modl (max + 1 - num) num with
    | some c' =>
      rw [hscan] at h
      obtain rfl := Except.ok.inj h
      exact ⟨num, List.mem_cons_self num rest, scanCandidate_ok isP max rem modl _ num c' hscan⟩
    | none =>
      rw [hscan] at h
      obtain ⟨num', hmem, hrest⟩ := ih c h
      exact ⟨num', List.mem_cons_of_mem num hmem, hrest⟩

theorem gpcRounds_total (isP : ℕ → Bool) (max rem modl : ℕ) :
    ∀ rngL, (∃ c, gpcRounds isP max rem modl rngL = .ok c) ∨
      gpcRounds isP max rem modl rngL = .error .invalidPrime := by
  intro rngL
  induction rngL with
  | nil => exact Or.inr rfl
  | cons num rest ih =>
    rw [gpcRounds]
    cases hscan : scanCandidate isP max rem modl (max + 1 - num) num with
    | some c => exact Or.inl ⟨c, rfl⟩
    | none => exact ih

/-- C8 (amended): the search consults at most the first 1000 random draws;
each round scans forward from its draw while the candidate stays at most
`2^bits - 1` (so a round is bounded by the width of the candidate range,
not by `bits` steps), and a returned value comes from such a scan; the
whole search returns either a found candidate or `InvalidPrime`, never
diverging. -/
theorem c8_prime_search_bounded (isPrime : ℕ → Bool) (rng : List ℕ)
    (bits remainder modulus : ℕ) :
    generate_prime_congruent isPrime rng bits remainder modulus =
      generate_prime_congruent isPrime (rng.take 1000) bits remainder modulus ∧
    (∀ c, generate_prime_congruent isPrime rng bits remainder modulus = .ok c →
      ∃ num ∈ rng.take 1000,
        num ≤ c ∧ c ≤ 2 ^ bits - 1 ∧ c % modulus = remainder ∧ isPrime c = true) ∧
    ((∃ c, generate_prime_congruent isPrime rng bits remainder modulus = .ok c) ∨
      generate_prime_congruent isPrime rng bits remainder modulus = .error .invalidPrime) := by
  refine ⟨?_, ?_, ?_⟩
  · rw [generate_prime_congruent, generate_prime_congruent, List.take_take, min_self]
  · intro c h
    exact gpcRounds_ok isPrime (2 ^ bits - 1) remainder modulus (rng.take 1000) c h
  · exact gpcRounds_total isPrime (2 ^ bits - 1) remainder modulus (rng.take 1000)

/-- C8 counterexample to the claim as stated: with `bits = 4` a single
round scans from the draw 8 all the way to 15 — more than `bits` forward
steps — and succeeds without restarting (only one draw is available, so a
restart after at most `bits` steps would exhaust the rounds instead). -/
theorem c8_counterexample :
    generate_prime_congruent (fun _ => true) [8] 4 15 16 = .ok 15 ∧ 8 + 4 < 15 := by
  decide

/-- C8 witness. -/
theorem c8_prime_search_bounded_witness :
    ∃ num ∈ ([9] : List ℕ).take 1000,
      num ≤ 11 ∧ 11 ≤ 2 ^ 4 - 1 ∧ 11 % 8 = 3 ∧ (fun n : ℕ => n == 11) 11 = true :=
  (c8_prime_search_bounded (fun n => n == 11) [9] 4 3 8).2.1 11 (by decide)

/-- C4: `generate_with_hash` (hence `generate`) rejects `bits < 1024` with
`InvalidKeySize`; every key pair it returns has `p ≡ 3 (mod 8)`,
`q ≡ 7 (mod 8)`, `p ≠ q`, both primes accepted by the primality oracle,
`n = p·q`, and — given the RNG's contract of drawing at least
`2^(bits/2-1)` — both primes have exactly `bits/2` significant bits. -/
theorem c4_generate_key_invariants (isPrime : ℕ → Bool) (rngP rngQ : List ℕ)
    (bits : ℕ) (hash : List ℕ → ℕ) :
    (bits < 1024 →
      KeyPair.generate_with_hash isPrime rngP rngQ bits hash = .error .invalidKeySize) ∧
    (∀ kp, KeyPair.generate_with_hash isPrime rngP rngQ bits hash = .ok kp →
      kp.priv.p % 8 = 3 ∧ kp.priv.q % 8 = 7 ∧ kp.priv.p ≠ kp.priv.q ∧
      isPrime kp.priv.p = true ∧ isPrime kp.priv.q = true ∧
      kp.pub.n = kp.priv.p * kp.priv.q ∧
      kp.priv.p ≤ 2 ^ (bits / 2) - 1 ∧ kp.priv.q ≤ 2 ^ (bits / 2) - 1 ∧
      ((∀ d ∈ rngP, 2 ^ (bits / 2 - 1) ≤ d) → 2 ^ (bits / 2 - 1) ≤ kp.priv.p) ∧
      ((∀ d ∈ rngQ, 2 ^ (bits / 2 - 1) ≤ d) → 2 ^ (bits / 2 - 1) ≤ kp.priv.q)) := by
  constructor
  · intro hbits
    rw [KeyPair.generate_with_hash, if_pos hbits]
  · intro kp h
    rw [KeyPair.generate_with_hash] at h
    by_cases hbits : bits < 1024
    · rw [if_pos hbits] at h
      exact absurd h (by simp)
    · rw [if_neg hbits] at h
      cases hp : generate_prime_congruent isPrime rngP (bits / 2) 3 8 with
      | error errp => simp only [hp] at h; exact absurd h (by simp)
      | ok p =>
        simp only [hp] at h
        cases hq : generate_prime_congruent isPrime rngQ (bits / 2) 7 8 with
        | error errq => simp only [hq] at h; exact absurd h (by simp)
        | ok q =>
          simp only [hq] at h
          obtain rfl := Except.ok.inj h
          dsimp only
          obtain ⟨nump, hmemp, hnump, hpmax, hp8, hpprime⟩ :=
            gpcRounds_ok isPrime (2 ^ (bits / 2) - 1) 3 8 (rngP.take 1000) p hp
          obtain ⟨numq, hmemq, hnumq, hqmax, hq8, hqprime⟩ :=
            gpcRounds_ok isPrime (2 ^ (bits / 2) - 1) 7 8 (rngQ.take 1000) q hq
          refine ⟨hp8, hq8, ?_, hpprime, hqprime, rfl, hpmax, hqmax, ?_, ?_⟩
          · intro heq
            omega
          · intro hlo
            exact le_trans (hlo nump (List.take_subset 1000 rngP hmemp)) hnump
          · intro hlo
            exact le_trans (hlo numq (List.take_subset 1000 rngQ hmemq)) hnumq

set_option maxRecDepth 8000 in
/-- C4 witness: a concrete run.  With the all-accepting oracle and a draw
of exactly `2^511`, the `bits = 1024` search returns `p = 2^511 + 3` and
`q = 2^511 + 7`; a `bits = 512` request is rejected. -/
theorem c4_generate_key_invariants_witness :
    KeyPair.generate_with_hash (fun _ => true)
        [6703903964971298549787012499102923063739682910296196688861780721860882015036773488400937149083451713845015929093243025426876941405973284973216824503042048]
        [6703903964971298549787012499102923063739682910296196688861780721860882015036773488400937149083451713845015929093243025426876941405973284973216824503042048]
        512 (fun _ => 0) = .error .invalidKeySize ∧
    6703903964971298549787012499102923063739682910296196688861780721860882015036773488400937149083451713845015929093243025426876941405973284973216824503042051 % 8 = 3 ∧
    6703903964971298549787012499102923063739682910296196688861780721860882015036773488400937149083451713845015929093243025426876941405973284973216824503042055 % 8 = 7 := by
  have h := c4_generate_key_invariants (fun _ => true)
    [6703903964971298549787012499102923063739682910296196688861780721860882015036773488400937149083451713845015929093243025426876941405973284973216824503042048]
    [6703903964971298549787012499102923063739682910296196688861780721860882015036773488400937149083451713845015929093243025426876941405973284973216824503042048]
    1024 (fun _ => 0)
  have hok := h.2 ⟨⟨44942328371557897693232629769725618340449424473557664318357520289433168951375240783177119330601884005280028469967848339414697442203604155623211857659868598133481623069201869189200545929542160926692373699988140060016756279405766088103362287006697643807976077830437506990241080254033988809058571250651086454805, fun _ => 0⟩,
    ⟨6703903964971298549787012499102923063739682910296196688861780721860882015036773488400937149083451713845015929093243025426876941405973284973216824503042051,
     6703903964971298549787012499102923063739682910296196688861780721860882015036773488400937149083451713845015929093243025426876941405973284973216824503042055,
     fun _ => 0⟩⟩ rfl
  exact ⟨(c4_generate_key_invariants (fun _ => true)
      [6703903964971298549787012499102923063739682910296196688861780721860882015036773488400937149083451713845015929093243025426876941405973284973216824503042048]
      [6703903964971298549787012499102923063739682910296196688861780721860882015036773488400937149083451713845015929093243025426876941405973284973216824503042048]
      512 (fun _ => 0)).1 (by norm_num), hok.1, hok.2.1⟩

/-! ### Extended-Euclid lemmas -/

theorem egcdLoop_fuel (newr : ℕ) : ∀ fuel₁ fuel₂ r t newt, newr < fuel₁ → newr < fuel₂ →
    egcdLoop fuel₁ r newr t newt = egcdLoop fuel₂ r newr t newt := by
  induction newr using Nat.strong_induction_on with
  | _ newr ih =>
    intro fuel₁ fuel₂ r t newt h₁ h₂
    match fuel₁, fuel₂ with
    | 0, _ => omega
    | _ + 1, 0 => omega
    | f₁ + 1, f₂ + 1 =>
      rw [egcdLoop, egcdLoop]
      by_cases h0 : newr = 0
      · rw [if_pos h0, if_pos h0]
      · rw [if_neg h0, if_neg h0]
        have hmod : r % newr < newr := Nat.mod_lt r (Nat.pos_of_ne_zero h0)
        exact ih (r % newr) hmod f₁ f₂ newr _ _ (by omega) (by omega)

theorem egcdLoop_gcd (newr : ℕ) : ∀ fuel r t newt, newr < fuel →
    (egcdLoop fuel r newr t newt).1 = Nat.gcd newr r := by
  induction newr using Nat.strong_induction_on with
  | _ newr ih =>
    intro fuel r t newt h₁
    match fuel with
    | 0 => omega
    | f + 1 =>
      rw [egcdLoop]
      by_cases h0 : newr = 0
      · rw [if_pos h0, h0, Nat.gcd_zero_left]
      · rw [if_neg h0]
        have hmod : r % newr < newr := Nat.mod_lt r (Nat.pos_of_ne_zero h0)
        rw [ih (r % newr) hmod f newr _ _ (by omega)]
        exact (Nat.gcd_rec newr r).symm

/-- Loop invariant of the extended Euclid loop: both remainders stay
congruent to their Bezout coefficient times `a` modulo `m`, the
coefficients have opposite signs, and the classical magnitude identity
`|t|·newr + |newt|·r = m` holds; consequently the final coefficient is
bounded by `m` in magnitude. -/
theorem egcdLoop_invariant (a m : ℕ) (newr : ℕ) : ∀ fuel (r : ℕ) (t newt : ℤ),
    newr < fuel → 1 ≤ r →
    (r : ℤ) ≡ t * a [ZMOD m] → (newr : ℤ) ≡ newt * a [ZMOD m] →
    t * newt ≤ 0 →
    |t| * newr + |newt| * r = (m : ℤ) →
    |t| ≤ (m : ℤ) →
    ((egcdLoop fuel r newr t newt).1 : ℤ) ≡ (egcdLoop fuel r newr t newt).2 * a [ZMOD m] ∧
      |(egcdLoop fuel r newr t newt).2| ≤ (m : ℤ) := by
  induction newr using Nat.strong_induction_on with
  | _ newr ih =>
    intro fuel r t newt hfuel hr hcr hcnewr hsign hident htle
    match fuel with
    | 0 => omega
    | f + 1 =>
      rw [egcdLoop]
      by_cases h0 : newr = 0
      · rw [if_pos h0]
        exact ⟨hcr, htle⟩
      · rw [if_neg h0]
        have hnewr1 : 1 ≤ newr := Nat.pos_of_ne_zero h0
        have hmod : r % newr < newr := Nat.mod_lt r hnewr1
        have hq0 : (0 : ℤ) ≤ ((r / newr : ℕ) : ℤ) := Int.natCast_nonneg _
        have hdm : ((r % newr : ℕ) : ℤ) = (r : ℤ) - ((r / newr : ℕ) : ℤ) * (newr : ℤ) := by
          have h' : (newr : ℤ) * ((r / newr : ℕ) : ℤ) + ((r % newr : ℕ) : ℤ) = (r : ℤ) := by
            exact_mod_cast Nat.div_add_mod r newr
          linear_combination h'
        -- congruence for the new second remainder
        have hcnew : ((r % newr : ℕ) : ℤ) ≡ (t - (r / newr : ℕ) * newt) * a [ZMOD m] := by
          have h1 : ((r : ℤ) - (r / newr : ℕ) * newr) ≡
              t * a - (r / newr : ℕ) * (newt * a) [ZMOD m] :=
            Int.ModEq.sub hcr (Int.ModEq.mul_left _ hcnewr)
          rw [hdm]
          calc ((r : ℤ) - (r / newr : ℕ) * newr)
              ≡ t * a - (r / newr : ℕ) * (newt * a) [ZMOD m] := h1
            _ = (t - (r / newr : ℕ) * newt) * a := by ring
        -- magnitude bookkeeping, by sign case analysis
        have habs : |t - ((r / newr : ℕ) : ℤ) * newt| = |t| + ((r / newr : ℕ) : ℤ) * |newt| := by
          rcases mul_nonpos_iff.mp hsign with ⟨ht, hnt⟩ | ⟨ht, hnt⟩
          · rw [abs_of_nonneg ht, abs_of_nonpos hnt]
            have h1 : (0 : ℤ) ≤ ((r / newr : ℕ) : ℤ) * (-newt) := mul_nonneg hq0 (by linarith)
            rw [abs_of_nonneg (by linarith)]
            ring
          · rw [abs_of_nonpos ht, abs_of_nonneg hnt]
            have h1 : (0 : ℤ) ≤ ((r / newr : ℕ) : ℤ) * newt := mul_nonneg hq0 hnt
            rw [abs_of_nonpos (by linarith)]
            ring
        have hident' : |newt| * (r % newr : ℕ) + |t - ((r / newr : ℕ) : ℤ) * newt| * newr
            = (m : ℤ) := by
          rw [habs, hdm]
          linear_combination hident
        have hsign' : newt * (t - ((r / newr : ℕ) : ℤ) * newt) ≤ 0 := by
          rcases mul_nonpos_iff.mp hsign with ⟨ht, hnt⟩ | ⟨ht, hnt⟩
          · have h1 : ((r / newr : ℕ) : ℤ) * newt ≤ 0 := mul_nonpos_iff.mpr (Or.inl ⟨hq0, hnt⟩)
            exact mul_nonpos_iff.mpr (Or.inr ⟨hnt, by linarith⟩)
          · have h1 : (0 : ℤ) ≤ ((r / newr : ℕ) : ℤ) * newt := mul_nonneg hq0 hnt
            exact mul_nonpos_iff.mpr (Or.inl ⟨hnt, by linarith⟩)
        have hnewtle : |newt| ≤ (m : ℤ) := by
          have h1 : (0 : ℤ) ≤ |t| * newr := mul_nonneg (abs_nonneg t) (Int.natCast_nonneg _)
          have h2 : (1 : ℤ) ≤ (r : ℤ) := by exact_mod_cast hr
          nlinarith [abs_nonneg newt, mul_nonneg (abs_nonneg newt) (by linarith : (0:ℤ) ≤ (r:ℤ) - 1)]
        exact ih (r % newr) hmod f newr newt _ (by omega) hnewr1 hcnewr hcnew hsign' hident'
          hnewtle

/-- When `gcd(a, m) = 1` and `m > 0`, `mod_inverse` returns a value `v`
with `a·v ≡ 1 (mod m)`. -/
theorem mod_inverse_some (a m : ℕ) (hm : 0 < m) (hcop : Nat.Coprime a m) :
    ∃ v, mod_inverse a m = some v ∧ a * v % m = 1 % m := by
  have hinv := egcdLoop_invariant a m a (a + 1) m 0 1 (by omega) hm
    (by simpa using (Int.modEq_zero_iff_dvd).mpr (dvd_refl (m : ℤ)))
    (by simpa using Int.ModEq.refl (a : ℤ))
    (by norm_num) (by simp) (by positivity)
  have hgcd : (egcdLoop (a + 1) m a 0 1).1 = 1 := by
    rw [egcdLoop_gcd a (a + 1) m 0 1 (by omega)]
    exact hcop
  obtain ⟨hcong, hbound⟩ := hinv
  rw [hgcd] at hcong
  set t := (egcdLoop (a + 1) m a 0 1).2 with ht
  have hmi : mod_inverse a m = some (if t < 0 then t + m else t).toNat := by
    rw [mod_inverse, if_neg (by omega)]
    show (if 1 < (egcdLoop (a + 1) m a 0 1).1 then none
      else some (if (egcdLoop (a + 1) m a 0 1).2 < 0 then (egcdLoop (a + 1) m a 0 1).2 + (m : ℤ)
        else (egcdLoop (a + 1) m a 0 1).2).toNat) = _
    rw [hgcd, if_neg (by norm_num)]
  have htnn : 0 ≤ (if t < 0 then t + m else t) := by
    split
    · rw [abs_le] at hbound
      omega
    · omega
  have htcong : (if t < 0 then t + m else t) ≡ t [ZMOD (m : ℤ)] := by
    split
    · show (t + (m : ℤ)) % (m : ℤ) = t % (m : ℤ)
      have h := Int.add_mul_emod_self_left (a := t) (b := (m : ℤ)) (c := 1)
      rw [mul_one] at h
      exact h
    · exact Int.ModEq.refl t
  refine ⟨_, hmi, ?_⟩
  have hfinal : ((a * (if t < 0 then t + m else t).toNat : ℕ) : ℤ) ≡ ((1 : ℕ) : ℤ)
      [ZMOD ((m : ℕ) : ℤ)] := by
    push_cast
    rw [Int.toNat_of_nonneg htnn]
    calc (a : ℤ) * (if t < 0 then t + (m : ℤ) else t)
        ≡ (a : ℤ) * t [ZMOD (m : ℤ)] := Int.ModEq.mul_left _ htcong
      _ = t * (a : ℤ) := mul_comm _ _
      _ ≡ 1 [ZMOD (m : ℤ)] := by simpa using hcong.symm
  exact Int.natCast_modEq_iff.mp hfinal

/-- `mod_inverse` returns `none` exactly on zero modulus or non-coprime
arguments. -/
theorem mod_inverse_none_iff (a m : ℕ) :
    mod_inverse a m = none ↔ (m = 0 ∨ ¬ Nat.Coprime a m) := by
  by_cases hm : m = 0
  · simp [mod_inverse, hm]
  · have hgcd : (egcdLoop (a + 1) m a 0 1).1 = Nat.gcd a m :=
      egcdLoop_gcd a (a + 1) m 0 1 (by omega)
    rw [mod_inverse, if_neg hm]
    have hpos : 0 < Nat.gcd a m := Nat.gcd_pos_of_pos_right a (Nat.pos_of_ne_zero hm)
    constructor
    · intro h
      by_cases hg : 1 < (egcdLoop (a + 1) m a 0 1).1
      · right
        rw [hgcd] at hg
        exact fun hc => by rw [Nat.Coprime] at hc; omega
      · rw [if_neg hg] at h
        exact absurd h (by simp)
    · rintro (h | h)
      · exact absurd h hm
      · rw [if_pos (by rw [hgcd]; rw [Nat.Coprime] at h; omega)]

/-! ### Chinese remainder theorem lemmas -/

theorem pair_dvd_prod : ∀ (ms : List ℕ) (i j : ℕ) (hi : i < ms.length)
    (hj : j < ms.length), i ≠ j → ms[i] * ms[j] ∣ ms.prod := by
  intro ms
  induction ms with
  | nil => intro i j hi _ _; simp at hi
  | cons m rest ih =>
    intro i j hi hj hne
    simp only [List.length_cons] at hi hj
    match i, j with
    | 0, 0 => omega
    | 0, jj + 1 =>
      simp only [List.getElem_cons_zero, List.getElem_cons_succ, List.prod_cons]
      exact mul_dvd_mul_left m (List.dvd_prod (List.getElem_mem _))
    | ii + 1, 0 =>
      simp only [List.getElem_cons_zero, List.getElem_cons_succ, List.prod_cons]
      rw [mul_comm]
      exact mul_dvd_mul_left m (List.dvd_prod (List.getElem_mem _))
    | ii + 1, jj + 1 =>
      simp only [List.getElem_cons_succ, List.prod_cons]
      exact Dvd.dvd.mul_left (ih ii jj (by omega) (by omega) (by omega)) m

theorem coprime_prod_div_mem : ∀ (ms : List ℕ), List.Pairwise Nat.Coprime ms →
    (∀ x ∈ ms, 0 < x) → ∀ m ∈ ms, Nat.Coprime (ms.prod / m) m := by
  intro ms
  induction ms with
  | nil => intro _ _ m hm; simp at hm
  | cons a rest ih =>
    intro hcop hpos m hm
    obtain ⟨hhead, htail⟩ := List.pairwise_cons.mp hcop
    rcases List.mem_cons.mp hm with rfl | hm'
    · rw [List.prod_cons, Nat.mul_div_cancel_left _ (hpos m (List.mem_cons_self m rest))]
      exact Nat.coprime_list_prod_left_iff.mpr fun n hn => (hhead n hn).symm
    · have hdvd : m ∣ rest.prod := List.dvd_prod hm'
      rw [List.prod_cons, Nat.mul_div_assoc a hdvd]
      exact Nat.Coprime.mul (hhead m hm')
        (ih htail (fun x hx => hpos x (List.mem_cons_of_mem _ hx)) m hm')

theorem modEq_prod_of_forall_mem : ∀ (ms : List ℕ), List.Pairwise Nat.Coprime ms →
    ∀ x y, (∀ m ∈ ms, x ≡ y [MOD m]) → x ≡ y [MOD ms.prod] := by
  intro ms
  induction ms with
  | nil => intro _ x y _; exact Nat.modEq_one
  | cons a rest ih =>
    intro hcop x y h
    obtain ⟨hhead, htail⟩ := List.pairwise_cons.mp hcop
    rw [List.prod_cons]
    have hc : Nat.Coprime a rest.prod := Nat.coprime_list_prod_right_iff.mpr hhead
    exact (Nat.modEq_and_modEq_iff_modEq_mul hc).mp
      ⟨h a (List.mem_cons_self a rest), ih htail x y fun m hm => h m (List.mem_cons_of_mem _ hm)⟩

theorem sum_dvd_of_forall_dvd : ∀ (l : List ℕ) (md : ℕ),
    (∀ j (hj : j < l.length), md ∣ l[j]) → md ∣ l.sum := by
  intro l
  induction l with
  | nil => intro md _; simp
  | cons a rest ih =>
    intro md h
    rw [List.sum_cons]
    exact Nat.dvd_add (h 0 (by simp))
      (ih md fun j hj => by simpa using h (j + 1) (by simpa using Nat.succ_lt_succ hj))

theorem sum_modEq_single : ∀ (l : List ℕ) (md i : ℕ) (hi : i < l.length),
    (∀ j (hj : j < l.length), j ≠ i → md ∣ l[j]) → l.sum ≡ l[i] [MOD md] := by
  intro l
  induction l with
  | nil => intro md i hi; simp at hi
  | cons a rest ih =>
    intro md i hi hz
    simp only [List.length_cons] at hi
    match i with
    | 0 =>
      have hr : md ∣ rest.sum := sum_dvd_of_forall_dvd rest md fun j hj => by
        simpa using hz (j + 1) (by simpa using Nat.succ_lt_succ hj) (by omega)
      rw [List.sum_cons, List.getElem_cons_zero]
      calc a + rest.sum ≡ a + 0 [MOD md] :=
            Nat.ModEq.add_left a ((Nat.modEq_zero_iff_dvd).mpr hr)
        _ = a := by ring
    | ii + 1 =>
      have ha : md ∣ a := by simpa using hz 0 (by simp) (by omega)
      have hrec := ih md ii (by simpa using Nat.lt_of_succ_lt_succ hi) fun j hj hne => by
        simpa using hz (j + 1) (by simpa using Nat.succ_lt_succ hj) (by omega)
      rw [List.sum_cons, List.getElem_cons_succ]
      calc a + rest.sum ≡ 0 + rest[ii] [MOD md] :=
            Nat.ModEq.add ((Nat.modEq_zero_iff_dvd).mpr ha) hrec
        _ = rest[ii] := by ring

theorem crtLoop_ok (prod : ℕ) : ∀ (pairs : List (ℕ × ℕ)) (sum : ℕ),
    (∀ rm ∈ pairs, rm.2 ≠ 0 ∧ mod_inverse (prod / rm.2) rm.2 ≠ none) →
    crtLoop prod pairs sum =
      .ok (pairs.foldl (fun s rm => (s + crtTerm prod rm) % prod) sum) := by
  intro pairs
  induction pairs with
  | nil => intro sum _; rfl
  | cons rm rest ih =>
    intro sum h
    obtain ⟨hm0, hinv⟩ := h rm (List.mem_cons_self rm rest)
    obtain ⟨rr, mm⟩ := rm
    rw [crtLoop, if_neg hm0, List.foldl_cons]
    cases hmi : mod_inverse (prod / mm) mm with
    | none => exact absurd hmi hinv
    | some inv =>
      have hrec := ih ((sum + rr * (prod / mm) % prod * inv % prod % prod) % prod)
        fun x hx => h x (List.mem_cons_of_mem _ hx)
      simpa [hmi, crtTerm] using hrec

theorem crt_foldl_lt (prod : ℕ) (hp : 0 < prod) : ∀ (pairs : List (ℕ × ℕ)) (sum : ℕ),
    sum < prod →
    pairs.foldl (fun s rm => (s + crtTerm prod rm) % prod) sum < prod := by
  intro pairs
  induction pairs with
  | nil => intro sum h; simpa using h
  | cons rm rest ih =>
    intro sum _
    rw [List.foldl_cons]
    exact ih _ (Nat.mod_lt _ hp)

theorem crt_foldl_modEq (prod : ℕ) : ∀ (pairs : List (ℕ × ℕ)) (sum : ℕ),
    pairs.foldl (fun s rm => (s + crtTerm prod rm) % prod) sum ≡
      sum + (pairs.map (crtTerm prod)).sum [MOD prod] := by
  intro pairs
  induction pairs with
  | nil => intro sum; simp; rfl
  | cons rm rest ih =>
    intro sum
    rw [List.foldl_cons, List.map_cons, List.sum_cons]
    calc rest.foldl (fun s rm => (s + crtTerm prod rm) % prod) ((sum + crtTerm prod rm) % prod)
        ≡ (sum + crtTerm prod rm) % prod + (rest.map (crtTerm prod)).sum [MOD prod] := ih _
      _ ≡ sum + crtTerm prod rm + (rest.map (crtTerm prod)).sum [MOD prod] :=
          Nat.ModEq.add_right _ (Nat.mod_modEq _ _)
      _ = sum + (crtTerm prod rm + (rest.map (crtTerm prod)).sum) := by ring

theorem crtTerm_self (prod r m : ℕ) (hm : 0 < m) (hdvd : m ∣ prod)
    (hcop : Nat.Coprime (prod / m) m) : crtTerm prod (r, m) ≡ r [MOD m] := by
  obtain ⟨v, hv, hmod⟩ := mod_inverse_some (prod / m) m hm hcop
  have h1 : ∀ X : ℕ, X % prod ≡ X [MOD m] := fun X => (Nat.mod_modEq X prod).of_dvd hdvd
  rw [crtTerm]
  simp only [hv, Option.getD_some]
  calc r * (prod / m) % prod * v % prod % prod
      ≡ r * (prod / m) % prod * v % prod [MOD m] := h1 _
    _ ≡ r * (prod / m) % prod * v [MOD m] := h1 _
    _ ≡ r * (prod / m) * v [MOD m] := Nat.ModEq.mul_right v (h1 _)
    _ = r * (prod / m * v) := by ring
    _ ≡ r * 1 [MOD m] := Nat.ModEq.mul_left r hmod
    _ = r := by ring

theorem crtTerm_other (prod r m md : ℕ) (hdvd : md ∣ prod) (hdvd2 : md ∣ prod / m) :
    md ∣ crtTerm prod (r, m) := by
  have h1 : ∀ X : ℕ, X % prod ≡ X [MOD md] := fun X => (Nat.mod_modEq X prod).of_dvd hdvd
  have h2 : crtTerm prod (r, m) ≡
      r * (prod / m) * ((mod_inverse (prod / m) m).getD 0) [MOD md] := by
    rw [crtTerm]
    calc r * (prod / m) % prod * ((mod_inverse (prod / m) m).getD 0) % prod % prod
        ≡ r * (prod / m) % prod * ((mod_inverse (prod / m) m).getD 0) % prod [MOD md] := h1 _
      _ ≡ r * (prod / m) % prod * ((mod_inverse (prod / m) m).getD 0) [MOD md] := h1 _
      _ ≡ r * (prod / m) * ((mod_inverse (prod / m) m).getD 0) [MOD md] :=
          Nat.ModEq.mul_right _ (h1 _)
  have h3 : md ∣ r * (prod / m) * ((mod_inverse (prod / m) m).getD 0) :=
    Dvd.dvd.mul_right (Dvd.dvd.mul_left hdvd2 r) _
  exact (Nat.modEq_zero_iff_dvd).mp (((Nat.modEq_zero_iff_dvd).mpr h3).symm.trans h2.symm).symm

/-- Full functional correctness of `chinese_remainder_theorem` on positive
pairwise-coprime moduli. -/
theorem crt_spec (rs ms : List ℕ) (hlen : rs.length = ms.length) (hne : rs ≠ [])
    (hpos : ∀ m ∈ ms, 0 < m) (hcop : List.Pairwise Nat.Coprime ms) :
    ∃ x, chinese_remainder_theorem rs ms = .ok x ∧ x < ms.prod ∧
      (∀ i (hi : i < ms.length), x ≡ rs[i] [MOD ms[i]]) ∧
      ∀ y, y < ms.prod → (∀ i (hi : i < ms.length), y ≡ rs[i] [MOD ms[i]]) → y = x := by
  have hprodpos : 0 < ms.prod := by
    rcases Nat.eq_zero_or_pos ms.prod with h | h
    · rw [List.prod_eq_zero_iff] at h
      exact absurd (hpos 0 h) (by norm_num)
    · exact h
  have hplen : (rs.zip ms).length = ms.length := by
    rw [List.length_zip, hlen, min_self]
  have hinv : ∀ rm ∈ rs.zip ms, rm.2 ≠ 0 ∧ mod_inverse (ms.prod / rm.2) rm.2 ≠ none := by
    intro rm hrm
    have hm : rm.2 ∈ ms := (List.of_mem_zip hrm).2
    have hp := hpos _ hm
    refine ⟨by omega, ?_⟩
    rw [Ne, mod_inverse_none_iff]
    push_neg
    exact ⟨by omega, coprime_prod_div_mem ms hcop hpos _ hm⟩
  have hcrt : chinese_remainder_theorem rs ms =
      .ok ((rs.zip ms).foldl (fun s rm => (s + crtTerm ms.prod rm) % ms.prod) 0) := by
    rw [chinese_remainder_theorem, if_neg (by simp [hlen, hne])]
    show crtLoop (ms.foldl (· * ·) 1) (rs.zip ms) 0 = _
    rw [← List.prod_eq_foldl]
    exact crtLoop_ok ms.prod (rs.zip ms) 0 hinv
  set x := (rs.zip ms).foldl (fun s rm => (s + crtTerm ms.prod rm) % ms.prod) 0 with hx
  have hlt : x < ms.prod := crt_foldl_lt ms.prod hprodpos (rs.zip ms) 0 hprodpos
  have hcongs : ∀ i (hi : i < ms.length), x ≡ rs[i] [MOD ms[i]] := by
    intro i hi
    have hii : i < (rs.zip ms).length := by omega
    have hdvd_i : ms[i] ∣ ms.prod := List.dvd_prod (List.getElem_mem _)
    have h1 : x ≡ ((rs.zip ms).map (crtTerm ms.prod)).sum [MOD ms[i]] := by
      have := (crt_foldl_modEq ms.prod (rs.zip ms) 0).of_dvd hdvd_i
      simpa using this
    have hzip : ∀ j (hj : j < (rs.zip ms).length),
        (rs.zip ms)[j] = (rs[j], ms[j]) := by
      intro j hj
      have hj1 : j < rs.length := by omega
      have hj2 : j < ms.length := by omega
      exact List.getElem_zip
    have hmap_len : ((rs.zip ms).map (crtTerm ms.prod)).length = (rs.zip ms).length :=
      List.length_map _ _
    have hi' : i < ((rs.zip ms).map (crtTerm ms.prod)).length := by omega
    have hi'' : i < rs.length := by omega
    have h2 : ((rs.zip ms).map (crtTerm ms.prod)).sum ≡
        ((rs.zip ms).map (crtTerm ms.prod))[i] [MOD ms[i]] := by
      refine sum_modEq_single _ (ms[i]) i (by omega) ?_
      intro j hj hne'
      have hjj : j < (rs.zip ms).length := by omega
      rw [List.getElem_map, hzip j hjj]
      have hjm : j < ms.length := by omega
      have hdvd_j : ms[j] ∣ ms.prod := List.dvd_prod (List.getElem_mem _)
      have hpair : ms[i] * ms[j] ∣ ms.prod := pair_dvd_prod ms i j hi hjm (by omega)
      have hquot : ms[i] ∣ ms.prod / ms[j] := by
        have hjpos := hpos _ (List.getElem_mem hjm)
        have heq : ms[j] * (ms.prod / ms[j]) = ms.prod := Nat.mul_div_cancel' hdvd_j
        have : ms[j] * ms[i] ∣ ms[j] * (ms.prod / ms[j]) := by
          rw [heq, mul_comm]
          exact hpair
        exact (Nat.mul_dvd_mul_iff_left hjpos).mp this
      exact crtTerm_other ms.prod _ _ _ hdvd_i hquot
    have h3 : ((rs.zip ms).map (crtTerm ms.prod))[i] ≡ rs[i] [MOD ms[i]] := by
      rw [List.getElem_map, hzip i hii]
      exact crtTerm_self ms.prod (rs[i]) (ms[i]) (hpos _ (List.getElem_mem hi))
        (List.dvd_prod (List.getElem_mem _))
        (coprime_prod_div_mem ms hcop hpos _ (List.getElem_mem hi))
    exact (h1.trans h2).trans h3
  refine ⟨x, hcrt, hlt, hcongs, ?_⟩
  intro y hy hcong
  have hxy : ∀ m ∈ ms, x ≡ y [MOD m] := by
    intro m hm
    obtain ⟨i, hi, rfl⟩ := List.mem_iff_getElem.mp hm
    exact (hcongs i hi).trans (hcong i hi).symm
  exact (Nat.ModEq.eq_of_lt_of_lt (modEq_prod_of_forall_mem ms hcop x y hxy).symm hy hlt)

theorem crtLoop_error_iff (prod : ℕ) : ∀ (pairs : List (ℕ × ℕ)) (sum : ℕ),
    (∀ rm ∈ pairs, rm.2 ≠ 0) →
    (crtLoop prod pairs sum = .error .computationError ↔
      ∃ rm ∈ pairs, mod_inverse (prod / rm.2) rm.2 = none) := by
  intro pairs
  induction pairs with
  | nil => intro sum _; simp [crtLoop]
  | cons rm rest ih =>
    intro sum h
    obtain ⟨rr, mm⟩ := rm
    have hm0 : mm ≠ 0 := (h (rr, mm) (List.mem_cons_self _ rest))
    rw [crtLoop, if_neg hm0]
    cases hmi : mod_inverse (prod / mm) mm with
    | none =>
      simp only [hmi, List.mem_cons]
      exact ⟨fun _ => ⟨(rr, mm), Or.inl rfl, hmi⟩, fun _ => trivial⟩
    | some inv =>
      simp only [hmi]
      rw [ih _ fun x hx => h x (List.mem_cons_of_mem _ hx)]
      constructor
      · rintro ⟨rm', hrm', hnone⟩
        exact ⟨rm', List.mem_cons_of_mem _ hrm', hnone⟩
      · rintro ⟨rm', hrm', hnone⟩
        rcases List.mem_cons.mp hrm' with rfl | hmem
        · rw [hmi] at hnone
          exact absurd hnone (by simp)
        · exact ⟨rm', hmem, hnone⟩

/-- On positive moduli, `chinese_remainder_theorem` fails (necessarily with
`ComputationError`) exactly on length mismatch, empty input, or a
non-invertible quotient. -/
theorem crt_error_iff (rs ms : List ℕ) (hpos : ∀ m ∈ ms, 0 < m) :
    chinese_remainder_theorem rs ms = .error .computationError ↔
      (rs.length ≠ ms.length ∨ rs = [] ∨
        ∃ i, ∃ hi : i < ms.length, mod_inverse (ms.prod / ms[i]) ms[i] = none) := by
  by_cases hlen : rs.length = ms.length
  · by_cases hne : rs = []
    · subst hne
      rw [chinese_remainder_theorem, if_pos (by simp)]
      simp
    · have hplen : (rs.zip ms).length = ms.length := by
        rw [List.length_zip, hlen, min_self]
      rw [chinese_remainder_theorem, if_neg (by simp [hlen, hne])]
      show crtLoop (ms.foldl (· * ·) 1) (rs.zip ms) 0 = _ ↔ _
      rw [← List.prod_eq_foldl]
      rw [crtLoop_error_iff ms.prod (rs.zip ms) 0 (fun rm hrm => by
        have := hpos _ (List.of_mem_zip hrm).2
        omega)]
      constructor
      · rintro ⟨rm, hrm, hnone⟩
        obtain ⟨i, hi, hrm_eq⟩ := List.mem_iff_getElem.mp hrm
        rw [List.getElem_zip] at hrm_eq
        refine Or.inr (Or.inr ⟨i, by omega, ?_⟩)
        have hims : i < ms.length := by omega
        have : rm.2 = ms[i] := by rw [← hrm_eq]
        rw [← this]
        exact hnone
      · rintro (h | h | ⟨i, hi, hnone⟩)
        · exact absurd hlen h
        · exact absurd h hne
        · have hirs : i < rs.length := by omega
          have hizip : i < (rs.zip ms).length := by omega
          refine ⟨(rs[i], ms[i]), ?_, hnone⟩
          have : (rs.zip ms)[i] = (rs[i], ms[i]) := List.getElem_zip
          rw [← this]
          exact List.getElem_mem _
  · rw [chinese_remainder_theorem, if_pos (by omega)]
    simp [hlen]

/-- C5 (amended): restricted to positive moduli, `chinese_remainder_theorem`
returns the unique `x` in `[0, ∏ mᵢ)` with `x ≡ rᵢ (mod mᵢ)` on non-empty
equal-length pairwise-coprime inputs (in particular 23 on `[2,3,2]`,
`[3,5,7]`), and fails with `ComputationError` exactly when the lengths
differ, the inputs are empty, or some quotient `∏ mⱼ / mᵢ` has no inverse
modulo `mᵢ`. -/
theorem c5_crt_correct :
    (∀ rs ms : List ℕ, ∀ hlen : rs.length = ms.length, rs ≠ [] → (∀ m ∈ ms, 0 < m) →
      List.Pairwise Nat.Coprime ms →
      ∃ x, chinese_remainder_theorem rs ms = .ok x ∧ x < ms.prod ∧
        (∀ i (hi : i < ms.length), x ≡ rs[i] [MOD ms[i]]) ∧
        ∀ y, y < ms.prod →
          (∀ i (hi : i < ms.length), y ≡ rs[i] [MOD ms[i]]) → y = x) ∧
    chinese_remainder_theorem [2, 3, 2] [3, 5, 7] = .ok 23 ∧
    (∀ rs ms : List ℕ, (∀ m ∈ ms, 0 < m) →
      (chinese_remainder_theorem rs ms = .error .computationError ↔
        (rs.length ≠ ms.length ∨ rs = [] ∨
          ∃ i, ∃ hi : i < ms.length, mod_inverse (ms.prod / ms[i]) ms[i] = none))) :=
  ⟨crt_spec, by decide, crt_error_iff⟩

/-- C5 counterexample to the claim as stated: the moduli `[0, 1]` are
pairwise coprime and the inputs non-empty of equal length, yet the code
aborts on the `BigUint` division `prod / 0` (modelled `panicDivZero`)
instead of returning the (non-existent) unique solution in `[0, 0)` or a
`ComputationError`. -/
theorem c5_crt_counterexample :
    List.Pairwise Nat.Coprime [0, 1] ∧
      chinese_remainder_theorem [5, 0] [0, 1] = .error .panicDivZero := by
  decide

/-- C5 witness. -/
theorem c5_crt_correct_witness :
    ∃ x, chinese_remainder_theorem [2, 3, 2] [3, 5, 7] = .ok x ∧
      x < ([3, 5, 7] : List ℕ).prod ∧
      (∀ i (hi : i < ([3, 5, 7] : List ℕ).length),
        x ≡ ([2, 3, 2] : List ℕ)[i] [MOD ([3, 5, 7] : List ℕ)[i]]) ∧
      ∀ y, y < ([3, 5, 7] : List ℕ).prod →
        (∀ i (hi : i < ([3, 5, 7] : List ℕ).length),
          y ≡ ([2, 3, 2] : List ℕ)[i] [MOD ([3, 5, 7] : List ℕ)[i]]) → y = x :=
  c5_crt_correct.1 [2, 3, 2] [3, 5, 7] rfl (by simp) (by decide) (by decide)

/-! ### Euler-criterion lemmas for the embedded residue test -/

theorem is_qr_iff (a p : ℕ) (hp : 2 ≤ p) :
    is_quadratic_residue a p = true ↔ ((a : ZMod p)) ^ ((p - 1) / 2) = 1 := by
  rw [is_quadratic_residue, if_neg (by omega), beq_iff_eq]
  have h1 : (1 : ℕ) % p = 1 := Nat.mod_eq_of_lt (by omega)
  rw [show (a ^ ((p - 1) / 2) % p = 1) ↔ (a ^ ((p - 1) / 2) ≡ 1 [MOD p]) from by
    rw [Nat.ModEq, h1]]
  rw [← ZMod.natCast_eq_natCast_iff]
  push_cast
  rfl

theorem is_qr_true_of (c p : ℕ) (hp : 2 ≤ p)
    (hv : ((c : ZMod p)) ^ ((p - 1) / 2) = 1) : is_quadratic_residue c p = true :=
  (is_qr_iff c p hp).mpr hv

theorem is_qr_false_of (c p : ℕ) (hp : 2 < p)
    (hv : ((c : ZMod p)) ^ ((p - 1) / 2) = -1) : is_quadratic_residue c p = false := by
  haveI : Fact (2 < p) := ⟨hp⟩
  rw [← Bool.not_eq_true, is_qr_iff c p (by omega), hv]
  exact fun h => ZMod.neg_one_ne_one h

theorem euler_pm_one (p : ℕ) (hp : p.Prime) (hodd : p % 2 = 1) (A : ZMod p) (hA : A ≠ 0) :
    A ^ ((p - 1) / 2) = 1 ∨ A ^ ((p - 1) / 2) = -1 := by
  haveI : Fact p.Prime := ⟨hp⟩
  have hple := hp.two_le
  have h2 : A ^ ((p - 1) / 2) * A ^ ((p - 1) / 2) = 1 := by
    rw [← pow_add, show (p - 1) / 2 + (p - 1) / 2 = p - 1 by omega]
    exact ZMod.pow_card_sub_one_eq_one hA
  exact mul_self_eq_one_iff.mp h2

theorem two_ne_zero_zmod (p : ℕ) (hp : 2 < p) : (2 : ZMod p) ≠ 0 := by
  have h : ((2 : ℕ) : ZMod p) ≠ 0 := by
    rw [Ne, CharP.cast_eq_zero_iff (ZMod p) p 2]
    intro hdvd
    have := Nat.le_of_dvd (by norm_num) hdvd
    omega
  simpa using h

theorem two_pow_half_eq_neg_one (p : ℕ) (hp : p.Prime) (hp8 : p % 8 = 3) :
    (2 : ZMod p) ^ ((p - 1) / 2) = -1 := by
  haveI : Fact p.Prime := ⟨hp⟩
  have hge : 3 ≤ p := by omega
  have h2ne := two_ne_zero_zmod p (by omega)
  have hnotsq : ¬ IsSquare ((2 : ZMod p)) := by
    rw [ZMod.exists_sq_eq_two_iff (by omega)]
    omega
  rcases euler_pm_one p hp (by omega) _ h2ne with h | h
  · exact absurd ((ZMod.euler_criterion p h2ne).mpr
      (by rwa [show p / 2 = (p - 1) / 2 by omega])) hnotsq
  · exact h

theorem two_pow_half_eq_one (q : ℕ) (hq : q.Prime) (hq8 : q % 8 = 7) :
    (2 : ZMod q) ^ ((q - 1) / 2) = 1 := by
  haveI : Fact q.Prime := ⟨hq⟩
  have hge : 7 ≤ q := by omega
  have h2ne := two_ne_zero_zmod q (by omega)
  have hsq : IsSquare ((2 : ZMod q)) :=
    (ZMod.exists_sq_eq_two_iff (by omega)).mpr (Or.inr hq8)
  have h := (ZMod.euler_criterion q h2ne).mp hsq
  rwa [show q / 2 = (q - 1) / 2 by omega] at h

theorem odd_half_of_mod_four (p : ℕ) (hp4 : p % 4 = 3) : Odd ((p - 1) / 2) := by
  rw [Nat.odd_iff]
  omega

theorem natCast_mod_of_dvd (x n p : ℕ) (h : p ∣ n) :
    ((x % n : ℕ) : ZMod p) = (x : ZMod p) := by
  obtain ⟨k, rfl⟩ := h
  conv_rhs => rw [← Nat.div_add_mod x (p * k)]
  push_cast
  rw [ZMod.natCast_self]
  ring

theorem natCast_sub_of_le (a n p : ℕ) (h : p ∣ n) (hle : a ≤ n) :
    ((n - a : ℕ) : ZMod p) = -(a : ZMod p) := by
  obtain ⟨k, rfl⟩ := h
  rw [Nat.cast_sub hle]
  push_cast
  rw [ZMod.natCast_self]
  ring

theorem make_qr_eq_find (a p q : ℕ) (hle : a ≤ p * q) :
    make_quadratic_residue a p q =
      match (qrCandidates a p q).find?
          (fun c => is_quadratic_residue c.1 p && is_quadratic_residue c.1 q) with
      | some c => .ok c
      | none => .error .panicNoResidue := by
  show (if a ≤ p * q then
      match (qrCandidates a p q).find?
          (fun c => is_quadratic_residue c.1 p && is_quadratic_residue c.1 q) with
      | some c => Except.ok c
      | none => Except.error RwError.panicNoResidue
    else Except.error RwError.panicUnderflow) = _
  rw [if_pos hle]

/-- Exhaustive analysis of the four-candidate search: for primes
`p ≡ 3 (mod 8)`, `q ≡ 7 (mod 8)` and `a` coprime to `n = p·q` with
`0 < a < n`, exactly one candidate passes the joint residue test, the
search returns the first (hence only) passing candidate with its tag, and
the returned value is `e·f·a` modulo `n`. -/
theorem make_qr_cases (p q a : ℕ) (hp : Nat.Prime p) (hq : Nat.Prime q)
    (hp8 : p % 8 = 3) (hq8 : q % 8 = 7) (hcop : Nat.Coprime a (p * q)) (hlt : a < p * q) :
    ((qrCandidates a p q).countP
        (fun c => is_quadratic_residue c.1 p && is_quadratic_residue c.1 q)) = 1 ∧
    ∃ c e f, make_quadratic_residue a p q = .ok (c, e, f) ∧
      (qrCandidates a p q).find?
        (fun c => is_quadratic_residue c.1 p && is_quadratic_residue c.1 q)
        = some (c, e, f) ∧
      is_quadratic_residue c p = true ∧ is_quadratic_residue c q = true ∧
      ((e = 1 ∧ f = 1) ∨ (e = -1 ∧ f = 1) ∨ (e = 1 ∧ f = 2) ∨ (e = -1 ∧ f = 2)) ∧
      (c : ZMod (p * q)) = (e : ZMod (p * q)) * (f : ZMod (p * q)) * (a : ZMod (p * q)) := by
  haveI hpf : Fact p.Prime := ⟨hp⟩
  haveI hqf : Fact q.Prime := ⟨hq⟩
  have hp3 : 3 ≤ p := by omega
  have hq7 : 7 ≤ q := by omega
  have hle : a ≤ p * q := le_of_lt hlt
  have hdvdp : p ∣ p * q := dvd_mul_right p q
  have hdvdq : q ∣ p * q := dvd_mul_left q p
  have hcopp : Nat.Coprime a p := hcop.coprime_dvd_right hdvdp
  have hcopq : Nat.Coprime a q := hcop.coprime_dvd_right hdvdq
  have hA : (a : ZMod p) ≠ 0 := by
    rw [Ne, CharP.cast_eq_zero_iff (ZMod p) p a]
    intro hdvd
    have h1 := (hcopp.symm).eq_one_of_dvd hdvd
    omega
  have hB : (a : ZMod q) ≠ 0 := by
    rw [Ne, CharP.cast_eq_zero_iff (ZMod q) q a]
    intro hdvd
    have h1 := (hcopq.symm).eq_one_of_dvd hdvd
    omega
  have hoddp := odd_half_of_mod_four p (by omega)
  have hoddq := odd_half_of_mod_four q (by omega)
  have h2p := two_pow_half_eq_neg_one p hp hp8
  have h2q := two_pow_half_eq_one q hq hq8
  -- Euler values of the four candidates modulo p
  have hv2p : (((p * q - a : ℕ)) : ZMod p) ^ ((p - 1) / 2)
      = -((a : ZMod p) ^ ((p - 1) / 2)) := by
    rw [natCast_sub_of_le a (p * q) p hdvdp hle, neg_pow, Odd.neg_one_pow hoddp, neg_one_mul]
  have hv3p : (((a * 2 % (p * q) : ℕ)) : ZMod p) ^ ((p - 1) / 2)
      = -((a : ZMod p) ^ ((p - 1) / 2)) := by
    rw [natCast_mod_of_dvd _ _ _ hdvdp]
    push_cast
    rw [mul_pow, h2p]
    ring
  have hv4p : ((((p * q - a) * 2 % (p * q) : ℕ)) : ZMod p) ^ ((p - 1) / 2)
      = (a : ZMod p) ^ ((p - 1) / 2) := by
    rw [natCast_mod_of_dvd _ _ _ hdvdp, Nat.cast_mul,
      natCast_sub_of_le a (p * q) p hdvdp hle]
    push_cast
    rw [mul_pow, neg_pow, Odd.neg_one_pow hoddp, h2p]
    ring
  -- Euler values of the four candidates modulo q
  have hv2q : (((p * q - a : ℕ)) : ZMod q) ^ ((q - 1) / 2)
      = -((a : ZMod q) ^ ((q - 1) / 2)) := by
    rw [natCast_sub_of_le a (p * q) q hdvdq hle, neg_pow, Odd.neg_one_pow hoddq, neg_one_mul]
  have hv3q : (((a * 2 % (p * q) : ℕ)) : ZMod q) ^ ((q - 1) / 2)
      = (a : ZMod q) ^ ((q - 1) / 2) := by
    rw [natCast_mod_of_dvd _ _ _ hdvdq]
    push_cast
    rw [mul_pow, h2q]
    ring
  have hv4q : ((((p * q - a) * 2 % (p * q) : ℕ)) : ZMod q) ^ ((q - 1) / 2)
      = -((a : ZMod q) ^ ((q - 1) / 2)) := by
    rw [natCast_mod_of_dvd _ _ _ hdvdq, Nat.cast_mul,
      natCast_sub_of_le a (p * q) q hdvdq hle]
    push_cast
    rw [mul_pow, neg_pow, Odd.neg_one_pow hoddq, h2q]
    ring
  rcases euler_pm_one p hp (by omega) (a : ZMod p) hA with hu | hu <;>
    rcases euler_pm_one q hq (by omega) (a : ZMod q) hB with hw | hw
  · -- a is a residue modulo both: candidate 1
    have b1p := is_qr_true_of a p (by omega) hu
    have b1q := is_qr_true_of a q (by omega) hw
    have b2p := is_qr_false_of (p * q - a) p (by omega) (by rw [hv2p, hu])
    have b3p := is_qr_false_of (a * 2 % (p * q)) p (by omega) (by rw [hv3p, hu])
    have b4q := is_qr_false_of ((p * q - a) * 2 % (p * q)) q (by omega) (by rw [hv4q, hw])
    have hfind : (qrCandidates a p q).find?
        (fun c => is_quadratic_residue c.1 p && is_quadratic_residue c.1 q)
        = some (a, 1, 1) := by
      simp [qrCandidates, List.find?_cons, b1p, b1q]
    refine ⟨?_, a, 1, 1, ?_, hfind, b1p, b1q, Or.inl ⟨rfl, rfl⟩, ?_⟩
    · simp [qrCandidates, List.countP_cons, b1p, b1q, b2p, b3p, b4q]
    · rw [make_qr_eq_find a p q hle, hfind]
    · push_cast
      ring
  · -- only -2a is a joint residue: candidate 4
    have b1q := is_qr_false_of a q (by omega) hw
    have b2p := is_qr_false_of (p * q - a) p (by omega) (by rw [hv2p, hu])
    have b3p := is_qr_false_of (a * 2 % (p * q)) p (by omega) (by rw [hv3p, hu])
    have b4p := is_qr_true_of ((p * q - a) * 2 % (p * q)) p (by omega) (by rw [hv4p, hu])
    have b4q := is_qr_true_of ((p * q - a) * 2 % (p * q)) q (by omega)
      (by rw [hv4q, hw, neg_neg])
    have hfind : (qrCandidates a p q).find?
        (fun c => is_quadratic_residue c.1 p && is_quadratic_residue c.1 q)
        = some ((p * q - a) * 2 % (p * q), -1, 2) := by
      simp [qrCandidates, List.find?_cons, b1q, b2p, b3p, b4p, b4q]
    refine ⟨?_, (p * q - a) * 2 % (p * q), -1, 2, ?_, hfind, b4p, b4q,
      Or.inr (Or.inr (Or.inr ⟨rfl, rfl⟩)), ?_⟩
    · simp [qrCandidates, List.countP_cons, b1q, b2p, b3p, b4p, b4q]
    · rw [make_qr_eq_find a p q hle, hfind]
    · rw [ZMod.natCast_mod, Nat.cast_mul, natCast_sub_of_le a (p * q) (p * q) dvd_rfl hle]
      push_cast
      ring
  · -- only 2a is a joint residue: candidate 3
    have b1p := is_qr_false_of a p (by omega) hu
    have b2q := is_qr_false_of (p * q - a) q (by omega) (by rw [hv2q, hw])
    have b3p := is_qr_true_of (a * 2 % (p * q)) p (by omega) (by rw [hv3p, hu, neg_neg])
    have b3q := is_qr_true_of (a * 2 % (p * q)) q (by omega) (by rw [hv3q, hw])
    have b4p := is_qr_false_of ((p * q - a) * 2 % (p * q)) p (by omega) (by rw [hv4p, hu])
    have hfind : (qrCandidates a p q).find?
        (fun c => is_quadratic_residue c.1 p && is_quadratic_residue c.1 q)
        = some (a * 2 % (p * q), 1, 2) := by
      simp [qrCandidates, List.find?_cons, b1p, b2q, b3p, b3q]
    refine ⟨?_, a * 2 % (p * q), 1, 2, ?_, hfind, b3p, b3q,
      Or.inr (Or.inr (Or.inl ⟨rfl, rfl⟩)), ?_⟩
    · simp [qrCandidates, List.countP_cons, b1p, b2q, b3p, b3q, b4p]
    · rw [make_qr_eq_find a p q hle, hfind]
    · rw [ZMod.natCast_mod]
      push_cast
      ring
  · -- only -a is a joint residue: candidate 2
    have b1p := is_qr_false_of a p (by omega) hu
    have b2p := is_qr_true_of (p * q - a) p (by omega) (by rw [hv2p, hu, neg_neg])
    have b2q := is_qr_true_of (p * q - a) q (by omega) (by rw [hv2q, hw, neg_neg])
    have b3q := is_qr_false_of (a * 2 % (p * q)) q (by omega) (by rw [hv3q, hw])
    have b4p := is_qr_false_of ((p * q - a) * 2 % (p * q)) p (by omega) (by rw [hv4p, hu])
    have hfind : (qrCandidates a p q).find?
        (fun c => is_quadratic_residue c.1 p && is_quadratic_residue c.1 q)
        = some (p * q - a, -1, 1) := by
      simp [qrCandidates, List.find?_cons, b1p, b2p, b2q]
    refine ⟨?_, p * q - a, -1, 1, ?_, hfind, b2p, b2q,
      Or.inr (Or.inl ⟨rfl, rfl⟩), ?_⟩
    · simp [qrCandidates, List.countP_cons, b1p, b2p, b2q, b3q, b4p]
    · rw [make_qr_eq_find a p q hle, hfind]
    · rw [natCast_sub_of_le a (p * q) (p * q) dvd_rfl hle]
      push_cast
      ring

/-- C3 (amended): for primes `p ≡ 3 (mod 8)` and `q ≡ 7 (mod 8)` and every
`a` coprime to `n = p·q` with `0 < a < n`, exactly one of the four
candidates `a`, `n-a`, `2a mod n`, `2(n-a) mod n` (tagged `(1,1)`,
`(-1,1)`, `(1,2)`, `(-1,2)` respectively in `qrCandidates`) is a quadratic
residue modulo both `p` and `q`, and `make_quadratic_residue` returns the
first qualifying candidate in that order with its tag. -/
theorem c3_make_qr_exactly_one (p q a : ℕ) (hp : Nat.Prime p) (hq : Nat.Prime q)
    (hp8 : p % 8 = 3) (hq8 : q % 8 = 7) (hcop : Nat.Coprime a (p * q))
    (h0 : 0 < a) (hlt : a < p * q) :
    ((qrCandidates a p q).countP
        (fun c => is_quadratic_residue c.1 p && is_quadratic_residue c.1 q)) = 1 ∧
    ∃ c e f, make_quadratic_residue a p q = .ok (c, e, f) ∧
      (qrCandidates a p q).find?
        (fun c => is_quadratic_residue c.1 p && is_quadratic_residue c.1 q)
        = some (c, e, f) ∧
      is_quadratic_residue c p = true ∧ is_quadratic_residue c q = true ∧
      ((e = 1 ∧ f = 1) ∨ (e = -1 ∧ f = 1) ∨ (e = 1 ∧ f = 2) ∨ (e = -1 ∧ f = 2)) := by
  obtain ⟨hcount, c, e, f, hmk, hfind, hcp, hcq, htags, -⟩ :=
    make_qr_cases p q a hp hq hp8 hq8 hcop hlt
  exact ⟨hcount, c, e, f, hmk, hfind, hcp, hcq, htags⟩

/-- C3 counterexample to the claim as stated: `p = 3` and `q = 11` are both
primes `≡ 3 (mod 4)` and `a = 1` satisfies `0 < a < p·q`, yet two of the
four candidates (1 and 31) pass the joint residue test, not exactly one;
the mod-8 congruences of the key generator are needed (and `a` divisible
by `p` or `q` would give zero qualifying candidates). -/
theorem c3_counterexample :
    Nat.Prime 3 ∧ Nat.Prime 11 ∧ 3 % 4 = 3 ∧ 11 % 4 = 3 ∧ 0 < 1 ∧ 1 < 3 * 11 ∧
      ((qrCandidates 1 3 11).countP
        (fun c => is_quadratic_residue c.1 3 && is_quadratic_residue c.1 11)) = 2 := by
  decide

/-- C3 witness. -/
theorem c3_make_qr_exactly_one_witness :
    ((qrCandidates 4 3 7).countP
        (fun c => is_quadratic_residue c.1 3 && is_quadratic_residue c.1 7)) = 1 ∧
    ∃ c e f, make_quadratic_residue 4 3 7 = .ok (c, e, f) ∧
      (qrCandidates 4 3 7).find?
        (fun c => is_quadratic_residue c.1 3 && is_quadratic_residue c.1 7)
        = some (c, e, f) ∧
      is_quadratic_residue c 3 = true ∧ is_quadratic_residue c 7 = true ∧
      ((e = 1 ∧ f = 1) ∨ (e = -1 ∧ f = 1) ∨ (e = 1 ∧ f = 2) ∨ (e = -1 ∧ f = 2)) :=
  c3_make_qr_exactly_one 3 7 4 (by norm_num) (by norm_num) (by norm_num) (by norm_num)
    (by decide) (by norm_num) (by norm_num)

/-! ### Deterministic square root and signing -/

theorem sqrt_mod (p c : ℕ) (hp : Nat.Prime p) (hp4 : p % 4 = 3)
    (hc : is_quadratic_residue c p = true) :
    ((c % p) ^ ((p + 1) / 4) % p) * ((c % p) ^ ((p + 1) / 4) % p) ≡ c [MOD p] := by
  haveI : Fact p.Prime := ⟨hp⟩
  have hcz : ((c : ZMod p)) ^ ((p - 1) / 2) = 1 := (is_qr_iff c p (by omega)).mp hc
  have hsp : (((c % p) ^ ((p + 1) / 4) % p : ℕ) : ZMod p)
      = ((c : ZMod p)) ^ ((p + 1) / 4) := by
    rw [ZMod.natCast_mod, Nat.cast_pow, ZMod.natCast_mod]
  rw [← ZMod.natCast_eq_natCast_iff, Nat.cast_mul, hsp, ← pow_add,
    show (p + 1) / 4 + (p + 1) / 4 = (p - 1) / 2 + 1 by omega, pow_succ, hcz, one_mul]

theorem crt_two (sp sq p q : ℕ) (hp0 : 0 < p) (hq0 : 0 < q) (hcop : Nat.Coprime p q) :
    ∃ x, chinese_remainder_theorem [sp, sq] [p, q] = .ok x ∧ x < p * q ∧
      x ≡ sp [MOD p] ∧ x ≡ sq [MOD q] := by
  obtain ⟨x, hok, hlt, hcong, -⟩ := crt_spec [sp, sq] [p, q] rfl (by simp)
    (by intro m hm; simp only [List.mem_cons, List.not_mem_nil, or_false] at hm
        rcases hm with rfl | rfl <;> assumption)
    (List.pairwise_cons.mpr ⟨fun b hb => by
        simp only [List.mem_singleton] at hb
        subst hb
        exact hcop,
      List.pairwise_singleton _ _⟩)
  refine ⟨x, hok, by simpa using hlt, ?_, ?_⟩
  · have h := hcong 0 (by norm_num)
    simpa using h
  · have h := hcong 1 (by norm_num)
    simpa using h

/-- Core property of `raw_sign` on an input `B` coprime to the modulus:
it succeeds, and the packed magnitude `x` satisfies `x² = e·f·B (mod n)`
for the packed tag `(e, f)`. -/
theorem raw_sign_spec (p q : ℕ) (hash : List ℕ → ℕ) (hp : Nat.Prime p) (hq : Nat.Prime q)
    (hp8 : p % 8 = 3) (hq8 : q % 8 = 7) (B : ℕ) (hcop : Nat.Coprime B (p * q))
    (hlt : B < p * q) :
    ∃ e f x, (PrivateKey.mk p q hash).raw_sign (toBytesBE B) =
        .ok (PrivateKey.pack_signature e f x) ∧
      ((e = 1 ∧ f = 1) ∨ (e = -1 ∧ f = 1) ∨ (e = 1 ∧ f = 2) ∨ (e = -1 ∧ f = 2)) ∧
      ((x : ZMod (p * q)) * (x : ZMod (p * q))
        = (e : ZMod (p * q)) * (f : ZMod (p * q)) * (B : ZMod (p * q))) := by
  obtain ⟨-, c, e, f, hmk, -, hcp, hcq, htags, hcast⟩ :=
    make_qr_cases p q B hp hq hp8 hq8 hcop hlt
  have hcoppq : Nat.Coprime p q := (Nat.coprime_primes hp hq).mpr (by omega)
  obtain ⟨x, hcrt, hxlt, hxp, hxq⟩ := crt_two ((c % p) ^ ((p + 1) / 4) % p)
    ((c % q) ^ ((q + 1) / 4) % q) p q (by omega) (by omega) hcoppq
  refine ⟨e, f, x, ?_, htags, ?_⟩
  · simp only [PrivateKey.raw_sign, fromBytesBE_toBytesBE, hmk, hcrt]
  · have hsqp := sqrt_mod p c hp (by omega) hcp
    have hsqq := sqrt_mod q c hq (by omega) hcq
    have hxxp : x * x ≡ c [MOD p] := (hxp.mul hxp).trans hsqp
    have hxxq : x * x ≡ c [MOD q] := (hxq.mul hxq).trans hsqq
    have hxx : x * x ≡ c [MOD p * q] :=
      (Nat.modEq_and_modEq_iff_modEq_mul hcoppq).mp ⟨hxxp, hxxq⟩
    have hcast2 : ((x * x : ℕ) : ZMod (p * q)) = ((c : ℕ) : ZMod (p * q)) :=
      (ZMod.natCast_eq_natCast_iff _ _ _).mpr hxx
    push_cast at hcast2
    rw [hcast2, hcast]

theorem cast_eq_of_lt (a b n : ℕ) (ha : a < n) (hb : b < n)
    (h : (a : ZMod n) = (b : ZMod n)) : a = b :=
  Nat.ModEq.eq_of_lt_of_lt ((ZMod.natCast_eq_natCast_iff _ _ _).mp h) ha hb

theorem two_inv_mul (n : ℕ) (hodd : n % 2 = 1) (hn : 2 < n) :
    (((n + 1) / 2 : ℕ) : ZMod n) * 2 = 1 := by
  have h1 : ((n + 1) / 2 * 2 : ℕ) = n + 1 := by omega
  calc (((n + 1) / 2 : ℕ) : ZMod n) * 2
      = (((n + 1) / 2 * 2 : ℕ) : ZMod n) := by push_cast; ring
    _ = ((n + 1 : ℕ) : ZMod n) := by rw [h1]
    _ = 1 := by push_cast; rw [ZMod.natCast_self]; ring

/-- `PublicKey::verify` accepts any signature `pack(e, f, x)` whose
magnitude satisfies the Rabin-Williams equation `x² = e·f·H(m) (mod n)`. -/
theorem verify_of_sq (n : ℕ) (hash : List ℕ → ℕ) (msg : List ℕ) (e : ℤ) (f x : ℕ)
    (hn : 2 < n) (hodd : n % 2 = 1) (hm : hash msg < n)
    (htags : (e = 1 ∧ f = 1) ∨ (e = -1 ∧ f = 1) ∨ (e = 1 ∧ f = 2) ∨ (e = -1 ∧ f = 2))
    (hsq : (x : ZMod n) * (x : ZMod n)
      = (e : ZMod n) * (f : ZMod n) * ((hash msg : ℕ) : ZMod n)) :
    (PublicKey.mk n hash).verify msg (PrivateKey.pack_signature e f x) = .ok true := by
  have hn0 : 0 < n := by omega
  have hi2 := two_inv_mul n hodd hn
  have hxx : ((x * x % n : ℕ) : ZMod n) = (x : ZMod n) * (x : ZMod n) := by
    rw [ZMod.natCast_mod]
    push_cast
    ring
  have hxxle : x * x % n ≤ n := le_of_lt (Nat.mod_lt _ hn0)
  rcases htags with ⟨rfl, rfl⟩ | ⟨rfl, rfl⟩ | ⟨rfl, rfl⟩ | ⟨rfl, rfl⟩
  · have hex := extract_pack 1 1 x (Or.inl rfl) (Or.inl rfl)
    simp only [PublicKey.verify, hex]
    rw [if_pos (by norm_num)]
    suffices h : x * x % n = hash msg by simp [h]
    apply cast_eq_of_lt _ _ n (Nat.mod_lt _ hn0) hm
    rw [hxx, hsq]
    push_cast
    ring
  · have hex := extract_pack (-1) 1 x (Or.inr rfl) (Or.inl rfl)
    simp only [PublicKey.verify, hex]
    rw [if_neg (by norm_num), if_neg (by norm_num), if_pos (by norm_num)]
    suffices h : (n - x * x % n) % n = hash msg by simp [h]
    apply cast_eq_of_lt _ _ n (Nat.mod_lt _ hn0) hm
    rw [ZMod.natCast_mod, Nat.cast_sub hxxle, hxx, ZMod.natCast_self, hsq]
    push_cast
    ring
  · have hex := extract_pack 1 2 x (Or.inl rfl) (Or.inr rfl)
    simp only [PublicKey.verify, hex]
    rw [if_neg (by norm_num), if_pos (by norm_num)]
    suffices h : x * x % n * ((n + 1) / 2) % n = hash msg by simp [h]
    apply cast_eq_of_lt _ _ n (Nat.mod_lt _ hn0) hm
    rw [ZMod.natCast_mod, Nat.cast_mul, hxx, hsq]
    push_cast
    linear_combination (((hash msg : ℕ) : ZMod n)) * hi2
  · have hex := extract_pack (-1) 2 x (Or.inr rfl) (Or.inr rfl)
    simp only [PublicKey.verify, hex]
    rw [if_neg (by norm_num), if_neg (by norm_num), if_neg (by norm_num),
      if_pos (by norm_num)]
    suffices h : (n - x * x % n) * ((n + 1) / 2) % n = hash msg by simp [h]
    apply cast_eq_of_lt _ _ n (Nat.mod_lt _ hn0) hm
    rw [ZMod.natCast_mod, Nat.cast_mul, Nat.cast_sub hxxle, hxx, ZMod.natCast_self, hsq]
    push_cast
    linear_combination (((hash msg : ℕ) : ZMod n)) * hi2

/-- C1: for every message and every key pair satisfying the generator's
guarantees (`p`, `q` prime with `p ≡ 3 (mod 8)`, `q ≡ 7 (mod 8)`) whose
hash value is coprime to `n` and below `n` (automatic for generated keys
and a nonzero fixed-width digest), verification accepts the signature:
`verify(msg, sign(msg)) = Ok(true)`. -/
theorem c1_sign_verify_roundtrip (p q : ℕ) (hash : List ℕ → ℕ) (msg : List ℕ)
    (hp : Nat.Prime p) (hq : Nat.Prime q) (hp8 : p % 8 = 3) (hq8 : q % 8 = 7)
    (hcop : Nat.Coprime (hash msg) (p * q)) (hlt : hash msg < p * q) :
    ∃ sig, (PrivateKey.mk p q hash).sign msg = .ok sig ∧
      (PublicKey.mk (p * q) hash).verify msg sig = .ok true := by
  obtain ⟨e, f, x, hsign, htags, hsq⟩ :=
    raw_sign_spec p q hash hp hq hp8 hq8 (hash msg) hcop hlt
  have hp3 : 3 ≤ p := by omega
  have hq7 : 7 ≤ q := by omega
  have hn : 21 ≤ p * q := le_trans (by norm_num) (Nat.mul_le_mul hp3 hq7)
  have hodd : (p * q) % 2 = 1 := by
    rw [Nat.mul_mod, show p % 2 = 1 by omega, show q % 2 = 1 by omega]
  refine ⟨PrivateKey.pack_signature e f x, ?_, ?_⟩
  · rw [PrivateKey.sign]
    exact hsign
  · exact verify_of_sq (p * q) hash msg e f x (by omega) hodd hlt htags hsq

/-- C1 witness: `p = 3`, `q = 7`, constant hash 4 on the empty message. -/
theorem c1_sign_verify_roundtrip_witness :
    ∃ sig, (PrivateKey.mk 3 7 (fun _ => 4)).sign [] = .ok sig ∧
      (PublicKey.mk (3 * 7) (fun _ => 4)).verify [] sig = .ok true :=
  c1_sign_verify_roundtrip 3 7 (fun _ => 4) [] (by norm_num) (by norm_num)
    (by norm_num) (by norm_num) (by decide) (by norm_num)

theorem coprime_mod_left (x n : ℕ) (h : Nat.Coprime x n) : Nat.Coprime (x % n) n := by
  have h1 : Nat.gcd (x % n) n = Nat.gcd n x := (Nat.gcd_rec n x).symm
  unfold Nat.Coprime at h ⊢
  rw [h1, Nat.gcd_comm]
  exact h

/-- C2: for every message, every key pair satisfying the generator's
guarantees, and every valid blinding factor `r` (drawn coprime to `n` in
`[1, n)`), raw-signing the blinded message and unblinding the result yields
a signature that verifies against the original message. -/
theorem c2_blind_sign_roundtrip (p q r : ℕ) (hash : List ℕ → ℕ) (msg : List ℕ)
    (hp : Nat.Prime p) (hq : Nat.Prime q) (hp8 : p % 8 = 3) (hq8 : q % 8 = 7)
    (hcopm : Nat.Coprime (hash msg) (p * q)) (hmlt : hash msg < p * q)
    (hr0 : 0 < r) (hrlt : r < p * q) (hcopr : Nat.Coprime r (p * q)) :
    ∃ sig1 sig2,
      (PrivateKey.mk p q hash).raw_sign
        (toBytesBE ((PublicKey.mk (p * q) hash).blind_message msg r).1) = .ok sig1 ∧
      (PublicKey.mk (p * q) hash).unblind_signature sig1 r = .ok sig2 ∧
      (PublicKey.mk (p * q) hash).verify msg sig2 = .ok true := by
  have hp3 : 3 ≤ p := by omega
  have hq7 : 7 ≤ q := by omega
  have hn : 21 ≤ p * q := le_trans (by norm_num) (Nat.mul_le_mul hp3 hq7)
  have hn0 : 0 < p * q := by omega
  have hodd : (p * q) % 2 = 1 := by
    rw [Nat.mul_mod, show p % 2 = 1 by omega, show q % 2 = 1 by omega]
  have hB1 : ((PublicKey.mk (p * q) hash).blind_message msg r).1
      = r * r % (p * q) * hash msg % (p * q) := rfl
  set B := r * r % (p * q) * hash msg % (p * q) with hBdef
  have hcopB : Nat.Coprime B (p * q) := by
    apply coprime_mod_left
    exact Nat.Coprime.mul (coprime_mod_left _ _ (hcopr.mul hcopr)) hcopm
  have hBlt : B < p * q := Nat.mod_lt _ hn0
  obtain ⟨e, f, x, hsign, htags, hsq⟩ :=
    raw_sign_spec p q hash hp hq hp8 hq8 B hcopB hBlt
  obtain ⟨rinv, hrinv, hrmod⟩ := mod_inverse_some r (p * q) hn0 hcopr
  have he : e = 1 ∨ e = -1 := by
    rcases htags with ⟨h1, -⟩ | ⟨h1, -⟩ | ⟨h1, -⟩ | ⟨h1, -⟩
    · exact Or.inl h1
    · exact Or.inr h1
    · exact Or.inl h1
    · exact Or.inr h1
  have hf : f = 1 ∨ f = 2 := by
    rcases htags with ⟨-, h2⟩ | ⟨-, h2⟩ | ⟨-, h2⟩ | ⟨-, h2⟩
    · exact Or.inl h2
    · exact Or.inl h2
    · exact Or.inr h2
    · exact Or.inr h2
  have hex := extract_pack e f x he hf
  have hunblind : (PublicKey.mk (p * q) hash).unblind_signature
      (PrivateKey.pack_signature e f x) r
      = .ok (PrivateKey.pack_signature e f (rinv * x % (p * q))) := by
    rw [PublicKey.unblind_signature]
    simp only [hex, hrinv]
  refine ⟨_, _, by rw [hB1]; exact hsign, hunblind, ?_⟩
  apply verify_of_sq (p * q) hash msg e f (rinv * x % (p * q)) (by omega) hodd hmlt htags
  have hrr : (r : ZMod (p * q)) * (rinv : ZMod (p * q)) = 1 := by
    have hc : ((r * rinv : ℕ) : ZMod (p * q)) = ((1 : ℕ) : ZMod (p * q)) :=
      (ZMod.natCast_eq_natCast_iff _ _ _).mpr hrmod
    push_cast at hc
    exact hc
  have hBcast : ((B : ℕ) : ZMod (p * q)) =
      (r : ZMod (p * q)) * (r : ZMod (p * q)) * ((hash msg : ℕ) : ZMod (p * q)) := by
    rw [hBdef, ZMod.natCast_mod, Nat.cast_mul, ZMod.natCast_mod]
    push_cast
    ring
  have hq2 : ((rinv * x % (p * q) : ℕ) : ZMod (p * q))
      = (rinv : ZMod (p * q)) * (x : ZMod (p * q)) := by
    rw [ZMod.natCast_mod]
    push_cast
    ring
  rw [hq2]
  rw [hBcast] at hsq
  linear_combination ((rinv : ZMod (p * q))) ^ 2 * hsq +
    ((e : ZMod (p * q)) * (f : ZMod (p * q)) * ((hash msg : ℕ) : ZMod (p * q))) *
      ((r : ZMod (p * q)) * (rinv : ZMod (p * q)) + 1) * hrr

/-- C2 witness: `p = 3`, `q = 7`, blinding factor `r = 2`, constant hash
4 on the empty message. -/
theorem c2_blind_sign_roundtrip_witness :
    ∃ sig1 sig2,
      (PrivateKey.mk 3 7 (fun _ => 4)).raw_sign
        (toBytesBE ((PublicKey.mk (3 * 7) (fun _ => 4)).blind_message [] 2).1)
        = .ok sig1 ∧
      (PublicKey.mk (3 * 7) (fun _ => 4)).unblind_signature sig1 2 = .ok sig2 ∧
      (PublicKey.mk (3 * 7) (fun _ => 4)).verify [] sig2 = .ok true :=
  c2_blind_sign_roundtrip 3 7 2 (fun _ => 4) [] (by norm_num) (by norm_num)
    (by norm_num) (by norm_num) (by decide) (by norm_num) (by norm_num) (by norm_num)
    (by decide)
